import Mathlib

/-!
Verification of the mount-table engine specification (libmount core:
parsing, matching, atomic update).  The engine itself is C code that is
not shipped with the Python binding tests, so every definition below is
modelled from the specification text; the Python tests
(test_mount_tab.py, test_mount_tab_update.py) fix the observable
interface (parse_file with an error callback, find_source / find_target /
find_pair / find_mountpoint with MNT_ITER_FORWARD / MNT_ITER_BACKWARD,
copy_fs, enable_comments, intro_comment / trailing_comment,
replace_file).
-/

set_option maxRecDepth 4000

namespace MTab

/-- Modelled from the spec: iteration direction is a two-valued
enumeration (`MNT_ITER_FORWARD` / `MNT_ITER_BACKWARD` in the binding). -/
inductive Direction where
  | forward
  | backward
deriving DecidableEq

/-- Modelled from the spec: one mount record.  `comment` is the block of
comment lines physically attached to this record's line (kept as raw
lines, newline-free). -/
structure Entry where
  source : String
  target : String
  fstype : String
  options : String
  dump_freq : Nat
  pass_no : Nat
  comment : List String
deriving DecidableEq

/-- Modelled from the spec: a table is an ordered sequence of entries
plus the table-level comment blocks (kept as raw lines) and the
`comments_enabled` flag. -/
structure Table where
  entries : List Entry
  intro_comment : List String
  trailing_comment : List String
  comments_enabled : Bool
deriving DecidableEq

/-! ## Character-level utilities -/

/-- Whitespace as the field delimiter class of the table text format. -/
def isWS (c : Char) : Bool := c == ' ' || c == '\t' || c == '\r' || c == '\n'

/-- Word splitter worker: `acc` holds the (reversed) characters of the
word currently being read. -/
def splitWordsAux : List Char → List Char → List (List Char)
  | [], acc => if acc.isEmpty then [] else [acc.reverse]
  | c :: cs, acc =>
    if isWS c then
      if acc.isEmpty then splitWordsAux cs []
      else acc.reverse :: splitWordsAux cs []
    else splitWordsAux cs (c :: acc)

/-- Split a character list into maximal nonempty runs of non-whitespace
characters (the whitespace-delimited fields of a data line). -/
def splitWordsChars (cs : List Char) : List (List Char) :=
  splitWordsAux cs []

/-- Join words with a single separator character between them. -/
def joinSepChars (sep : Char) : List (List Char) → List Char
  | [] => []
  | [w] => w
  | w :: ws => w ++ sep :: joinSepChars sep ws

/-- Split a character list at every occurrence of `sep` (auxiliary). -/
def splitOnCharAux (sep : Char) : List Char → List Char → List (List Char)
  | [], acc => [acc.reverse]
  | c :: cs, acc =>
    if c == sep then acc.reverse :: splitOnCharAux sep cs []
    else splitOnCharAux sep cs (c :: acc)

/-- Split a character list at every occurrence of `sep`. -/
def splitOnChar (sep : Char) (cs : List Char) : List (List Char) :=
  splitOnCharAux sep cs []

/-- Decimal digit character for a digit value. -/
def digitChar (d : Nat) : Char := Char.ofNat (48 + d)

/-- Is this character a decimal digit? -/
def isDigitCh (c : Char) : Bool := 48 ≤ c.toNat && c.toNat ≤ 57

/-- Value of a decimal digit character. -/
def charVal (c : Char) : Nat := c.toNat - 48

/-- Decimal rendering worker (structural on the fuel, which bounds the
number of digits). -/
def natToCharsAux : Nat → Nat → List Char → List Char
  | 0, _, acc => acc
  | fuel + 1, n, acc =>
    if n = 0 then acc
    else natToCharsAux fuel (n / 10) (digitChar (n % 10) :: acc)

/-- Render a natural number in decimal (most significant digit first). -/
def natToChars (n : Nat) : List Char :=
  if n = 0 then ['0'] else natToCharsAux n n []

/-- Parse a nonempty all-digit character list as a decimal natural
number; anything else is a parse failure. -/
def parseNatChars (cs : List Char) : Option Nat :=
  if cs.isEmpty then none
  else if cs.all isDigitCh then
    some (Nat.ofDigits 10 ((cs.map charVal).reverse))
  else none

/-! ## Line classification -/

/-- A blank line: whitespace only. -/
def isBlankLine (l : String) : Bool := l.toList.all isWS

/-- A full-line comment: `#`-prefixed after optional whitespace. -/
def isCommentLine (l : String) : Bool :=
  match l.toList.dropWhile isWS with
  | [] => false
  | c :: _ => c == '#'

/-- A pending (comment-or-blank) line. -/
def cbLine (l : String) : Bool := isBlankLine l || isCommentLine l

/-! ## Data-line parsing and serialization -/

/-- Modelled from the spec: map whitespace-delimited fields positionally
to source, target, fstype, options, dump_freq, pass_no; missing trailing
numeric fields default to 0; wrong field count or an unparsable numeric
field is a parse error (`none`). -/
def mkEntryFields (ws : List (List Char)) : Option (List String → Entry) :=
  match ws with
  | [s, t, f, o] =>
      some fun cm => ⟨String.mk s, String.mk t, String.mk f, String.mk o, 0, 0, cm⟩
  | [s, t, f, o, d] =>
      match parseNatChars d with
      | some dn => some fun cm => ⟨String.mk s, String.mk t, String.mk f, String.mk o, dn, 0, cm⟩
      | none => none
  | [s, t, f, o, d, p] =>
      match parseNatChars d, parseNatChars p with
      | some dn, some pn =>
          some fun cm => ⟨String.mk s, String.mk t, String.mk f, String.mk o, dn, pn, cm⟩
      | _, _ => none
  | _ => none

/-- Serialize one entry's fields as a single data line. -/
def fieldsLine (e : Entry) : String :=
  String.mk (joinSepChars ' '
    [e.source.toList, e.target.toList, e.fstype.toList, e.options.toList,
     natToChars e.dump_freq, natToChars e.pass_no])

/-- Modelled from the spec: the lines serializing one entry — its
attached comment block (when comments are enabled) followed by its data
line. -/
def serializeEntryLines (comments : Bool) (e : Entry) : List String :=
  (if comments then e.comment else []) ++ [fieldsLine e]

/-- Modelled from the spec: serialize a table — intro comment block,
each entry (comment block plus data line) in table order, then the
trailing comment block. -/
def serializeTable (t : Table) : List String :=
  t.intro_comment ++ t.entries.flatMap (serializeEntryLines t.comments_enabled)
    ++ t.trailing_comment

/-! ## The parser -/

/-- Split the pending comment/blank accumulator: second component is the
maximal suffix of comment lines (the block that will attach to the next
data line), first component is what precedes it. -/
def commentSplit (p : List String) : List String × List String :=
  ((p.reverse.dropWhile isCommentLine).reverse,
   (p.reverse.takeWhile isCommentLine).reverse)

/-- Parser state: entries accumulated so far (file order), the intro
block once fixed, the pending comment/blank accumulator, whether an
entry has been produced yet, and the trace of error-callback
invocations. -/
structure PState where
  rentries : List Entry
  intro : List String
  pending : List String
  started : Bool
  calls : List (String × Nat)
deriving DecidableEq

/-- Modelled from the spec: at end of input, comment/blank lines after
the last data line become the trailing comment; if no data line was ever
seen the whole accumulated block is the intro comment. -/
def finishTable (comments : Bool) (st : PState) : Table :=
  if st.started then
    ⟨st.rentries, st.intro, st.pending, comments⟩
  else
    ⟨[], st.pending, [], comments⟩

/-- Modelled from the spec: the line-by-line parse loop.  Comment/blank
lines accumulate in `pending` (only when comments are enabled).  A
well-formed data line takes the maximal comment-line suffix of `pending`
as its attached comment; the remainder of `pending` becomes the intro
comment if no entry was produced before.  A malformed data line invokes
the error sink once with the file identifier and the 1-based line
number; a positive return skips the line and continues, otherwise the
parse aborts with that diagnostic. -/
def parseLoop (comments : Bool) (fname : String) (sink : String → Nat → Int) :
    List String → Nat → PState → Except (String × Nat) Table × List (String × Nat)
  | [], _, st => (Except.ok (finishTable comments st), st.calls)
  | l :: rest, ln, st =>
    if cbLine l then
      parseLoop comments fname sink rest (ln + 1)
        { st with pending := if comments then st.pending ++ [l] else [] }
    else
      match mkEntryFields (splitWordsChars l.toList) with
      | none =>
        if sink fname ln > 0 then
          parseLoop comments fname sink rest (ln + 1)
            { st with calls := st.calls ++ [(fname, ln)] }
        else
          (Except.error (fname, ln), st.calls ++ [(fname, ln)])
      | some mk =>
        let sp := commentSplit st.pending
        parseLoop comments fname sink rest (ln + 1)
          { rentries := st.rentries ++ [mk sp.2],
            intro := if st.started then st.intro else sp.1,
            pending := [],
            started := true,
            calls := st.calls }

/-- Modelled from the spec: `parse(text, comments_enabled, error_sink)`
over a list of lines; returns the parse result together with the trace
of error-sink invocations. -/
def parseLines (comments : Bool) (fname : String) (sink : String → Nat → Int)
    (lines : List String) : Except (String × Nat) Table × List (String × Nat) :=
  parseLoop comments fname sink lines 1 ⟨[], [], [], false, []⟩

/-- Split a text into lines (a trailing newline does not create an extra
empty line). -/
def toLines (s : String) : List String :=
  let ps := (splitOnChar '\n' s.toList).map String.mk
  match ps.getLast? with
  | some l => if l = "" then ps.dropLast else ps
  | none => ps

/-- Modelled from the spec: parse raw text. -/
def parseText (comments : Bool) (fname : String) (sink : String → Nat → Int)
    (s : String) : Except (String × Nat) Table × List (String × Nat) :=
  parseLines comments fname sink (toLines s)

/-! ## The matcher

The spec makes source/target comparison "canonicalized-path equality"
with best-effort symlink resolution falling back to literal string
comparison, behind an injectable resolver; the model instantiates the
resolver with the identity, so comparison is literal equality. -/

/-- First entry satisfying `p` in the requested scan direction:
`forward` scans file order, `backward` reverse file order. -/
def findIn (dir : Direction) (p : Entry → Bool) (es : List Entry) : Option Entry :=
  match dir with
  | .forward => es.find? p
  | .backward => es.reverse.find? p

/-- Modelled from the spec: first entry whose `source` matches. -/
def find_source (tb : Table) (v : String) (dir : Direction) : Option Entry :=
  findIn dir (fun e => e.source == v) tb.entries

/-- Modelled from the spec: first entry whose `target` matches. -/
def find_target (tb : Table) (v : String) (dir : Direction) : Option Entry :=
  findIn dir (fun e => e.target == v) tb.entries

/-- Modelled from the spec: first entry where source and target match
simultaneously (co-occurrence in one record). -/
def find_pair (tb : Table) (s t : String) (dir : Direction) : Option Entry :=
  findIn dir (fun e => e.source == s && e.target == t) tb.entries

/-- Path components of an absolute path (nonempty `/`-separated runs). -/
def pathComponents (p : String) : List (List Char) :=
  (splitOnChar '/' p.toList).filter (fun w => !w.isEmpty)

/-- Render a component list as an absolute path (`[]` renders as "/"). -/
def renderPath (cs : List (List Char)) : String :=
  String.mk ('/' :: joinSepChars '/' cs)

/-- Strict ancestors of a component list, longest first, down to the
root; the argument is the reversed component list. -/
def ancestorComps : List (List Char) → List (List (List Char))
  | [] => []
  | _ :: rest => rest.reverse :: ancestorComps rest

/-- Modelled from the spec: the candidate paths tried by mountpoint
resolution — the literal path first, then the result of repeatedly
stripping the last path component, ending at the root. -/
def mountCandidates (p : String) : List String :=
  p :: (ancestorComps (pathComponents p).reverse).map renderPath

/-- Modelled from the spec: resolve the entry whose `target` is the
longest ancestor path of `p` (including exact match), by trying each
candidate path in turn. -/
def find_mountpoint (tb : Table) (p : String) (dir : Direction) : Option Entry :=
  (mountCandidates p).findSome? (fun c => find_target tb c dir)

/-- Modelled from the spec: an entry is considered mounted according to
`ref` if some entry of `ref` has equal target and equal source (any such
reference entry suffices). -/
def is_fs_mounted (ref : Table) (e : Entry) : Bool :=
  ref.entries.any (fun r => r.target == e.target && r.source == e.source)

/-! ## Mutable-entry heap (aliasing model)

Entries owned by tables live in a heap (arena) indexed by position, so
that "shares no mutable state" is expressible: mutating one heap cell
leaves every other cell unchanged. -/

/-- A heap of entries; an entry reference is an index into it. -/
abbrev Heap := List Entry

/-- The default entry used for an out-of-range read. -/
def defaultEntry : Entry := ⟨"", "", "", "", 0, 0, []⟩

/-- Modelled from the spec: `copy_entry` returns an independent
duplicate — a fresh heap cell holding the same field values, whose
reference is distinct from every existing reference. -/
def copy_entry (h : Heap) (i : Nat) : Heap × Nat :=
  (h ++ [h.getD i defaultEntry], h.length)

/-- Apply `f` to the heap cell at index `i`. -/
def updateAt : Heap → Nat → (Entry → Entry) → Heap
  | [], _, _ => []
  | e :: h, 0, f => f e :: h
  | e :: h, n + 1, f => e :: updateAt h n f

/-- Mutate the `options` field of the entry at `i`. -/
def set_options (h : Heap) (i : Nat) (v : String) : Heap :=
  updateAt h i (fun e => { e with options := v })

/-- Mutate the attached comment text of the entry at `i`. -/
def set_comment (h : Heap) (i : Nat) (c : List String) : Heap :=
  updateAt h i (fun e => { e with comment := c })

/-! ## The updater (atomic replace) -/

/-- The steps of `replace_file`, in order. -/
inductive UStep where
  | serialize
  | write
  | fsync
  | rename
deriving DecidableEq

/-- Result of `replace_file`: success, or the step that failed. -/
inductive RResult where
  | ok
  | failed (s : UStep)
deriving DecidableEq

/-- The observable on-disk state: the content of the target path and
the temporary file (`none` when absent).  File content is a line list. -/
structure FsState where
  pathLines : List String
  temp : Option (List String)
deriving DecidableEq

/-- The sequence of on-disk states while the temporary file is being
written: the temporary file grows line by line; the target path is
untouched. -/
def writeStates (fs : FsState) (content : List String) : List FsState :=
  (List.range (content.length + 1)).map
    (fun k => { fs with temp := some (content.take k) })

/-- Modelled from the spec: `replace_file(table, path)` — serialize the
table, write the text to a co-located temporary file, force it durable,
then atomically rename it over the path.  `fault` injects a failure at
one step.  Returns the result, the final on-disk state, and the trace of
every intermediate on-disk state a concurrent reader could observe.  A
failure before (or at) the rename removes the temporary file and leaves
the path untouched; only the atomic rename ever changes the path
content. -/
def replace_file (t : Table) (fault : Option UStep) (fs : FsState) :
    RResult × FsState × List FsState :=
  if fault = some UStep.serialize then
    (RResult.failed UStep.serialize, { fs with temp := none }, [fs])
  else
    let content := serializeTable t
    let ws := writeStates fs content
    if fault = some UStep.write then
      (RResult.failed UStep.write, { fs with temp := none },
        fs :: ws ++ [{ fs with temp := none }])
    else if fault = some UStep.fsync then
      (RResult.failed UStep.fsync, { fs with temp := none },
        fs :: ws ++ [{ fs with temp := none }])
    else if fault = some UStep.rename then
      (RResult.failed UStep.rename, { fs with temp := none },
        fs :: ws ++ [{ fs with temp := none }])
    else
      (RResult.ok, ⟨content, none⟩, fs :: ws ++ [⟨content, none⟩])

/-! ## Generic search characterizations -/

theorem find?_eq_some_split (p : α → Bool) (l : List α) (a : α) :
    l.find? p = some a ↔
      p a = true ∧ ∃ l₁ l₂, l = l₁ ++ a :: l₂ ∧ ∀ x ∈ l₁, p x = false := by
  induction l with
  | nil => simp
  | cons b l ih =>
    cases hb : p b with
    | true =>
      rw [List.find?_cons_of_pos _ hb]
      constructor
      · rintro h
        injection h with h
        subst h
        exact ⟨hb, [], l, rfl, by intro x hx; cases hx⟩
      · rintro ⟨ha, l₁, l₂, heq, h₁⟩
        cases l₁ with
        | nil =>
          injection heq with h1 h2
          rw [h1]
        | cons c l₁ =>
          injection heq with h1 h2
          subst h1
          have := h₁ b (by simp)
          rw [this] at hb
          cases hb
    | false =>
      rw [List.find?_cons_of_neg _ (by simp [hb]), ih]
      constructor
      · rintro ⟨ha, l₁, l₂, rfl, h₁⟩
        refine ⟨ha, b :: l₁, l₂, rfl, ?_⟩
        intro x hx
        rcases List.mem_cons.mp hx with rfl | hx
        · exact hb
        · exact h₁ x hx
      · rintro ⟨ha, l₁, l₂, heq, h₁⟩
        cases l₁ with
        | nil =>
          injection heq with h1 h2
          subst h1
          rw [ha] at hb
          cases hb
        | cons c l₁ =>
          injection heq with h1 h2
          subst h1 h2
          exact ⟨ha, l₁, l₂, rfl, fun x hx => h₁ x (by simp [hx])⟩

theorem findSome?_eq_some_split (f : α → Option β) (l : List α) (b : β) :
    l.findSome? f = some b ↔
      ∃ l₁ a l₂, l = l₁ ++ a :: l₂ ∧ f a = some b ∧ ∀ x ∈ l₁, f x = none := by
  induction l with
  | nil => simp
  | cons c l ih =>
    cases hc : f c with
    | some v =>
      rw [List.findSome?_cons, hc]
      constructor
      · rintro h
        injection h with h
        subst h
        exact ⟨[], c, l, rfl, hc, by intro x hx; cases hx⟩
      · rintro ⟨l₁, a, l₂, heq, ha, h₁⟩
        cases l₁ with
        | nil =>
          injection heq with h1 h2
          subst h1
          rw [hc] at ha
          exact ha
        | cons d l₁ =>
          injection heq with h1 h2
          subst h1
          have := h₁ c (by simp)
          rw [this] at hc
          cases hc
    | none =>
      rw [List.findSome?_cons, hc, ih]
      constructor
      · rintro ⟨l₁, a, l₂, rfl, ha, h₁⟩
        refine ⟨c :: l₁, a, l₂, rfl, ha, ?_⟩
        intro x hx
        rcases List.mem_cons.mp hx with rfl | hx
        · exact hc
        · exact h₁ x hx
      · rintro ⟨l₁, a, l₂, heq, ha, h₁⟩
        cases l₁ with
        | nil =>
          injection heq with h1 h2
          subst h1
          rw [hc] at ha
          cases ha
        | cons d l₁ =>
          injection heq with h1 h2
          subst h1 h2
          exact ⟨l₁, a, l₂, rfl, ha, fun x hx => h₁ x (by simp [hx])⟩

theorem reverse_eq_append_cons_iff (l l₁ l₂ : List α) (a : α) :
    l.reverse = l₁ ++ a :: l₂ ↔ l = l₂.reverse ++ a :: l₁.reverse := by
  constructor
  · intro h
    have := congrArg List.reverse h
    simpa using this
  · intro h
    subst h
    simp

/-! ## Heap lemmas -/

theorem updateAt_getElem?_ne (h : Heap) (j i : Nat) (f : Entry → Entry)
    (hne : i ≠ j) : (updateAt h j f)[i]? = h[i]? := by
  induction h generalizing i j with
  | nil => rfl
  | cons e h ih =>
    cases j with
    | zero =>
      cases i with
      | zero => exact absurd rfl hne
      | succ i => simp [updateAt]
    | succ j =>
      cases i with
      | zero => simp [updateAt]
      | succ i => simpa [updateAt] using ih j i (by omega)

theorem updateAt_append_last (h : Heap) (x : Entry) (f : Entry → Entry) :
    updateAt (h ++ [x]) h.length f = h ++ [f x] := by
  induction h with
  | nil => rfl
  | cons e h ih => simpa [updateAt] using ih

/-- C1: a failure at any step of `replace_file` before the atomic rename
(serialize, write, fsync) is reported as that step's failure, removes
the temporary file, and leaves the content of the target path
byte-for-byte identical to its content before the call; moreover every
on-disk state in the trace — what a concurrent reader of the path could
observe — carries either the fully old or the fully new content of the
path, never a partial write. -/
theorem replace_file_atomic (t : Table) (fault : Option UStep) (fs : FsState)
    (h : fault = some UStep.serialize ∨ fault = some UStep.write ∨
         fault = some UStep.fsync) :
    (replace_file t fault fs).1 = RResult.failed (fault.getD UStep.rename) ∧
    (replace_file t fault fs).2.1.pathLines = fs.pathLines ∧
    (replace_file t fault fs).2.1.temp = none ∧
    ∀ st ∈ (replace_file t fault fs).2.2,
      st.pathLines = fs.pathLines ∨ st.pathLines = serializeTable t := by
  have mem_ws : ∀ st ∈ writeStates fs (serializeTable t),
      st.pathLines = fs.pathLines := by
    intro st hst
    rcases List.mem_map.mp hst with ⟨k, _, rfl⟩
    rfl
  rcases h with h | h | h <;> subst h <;> refine ⟨rfl, rfl, rfl, ?_⟩
  · intro st hst
    left
    have hst' : st ∈ [fs] := by simpa [replace_file] using hst
    rw [List.mem_singleton.mp hst']
  all_goals
    intro st hst
    left
    have hst' : st ∈ fs :: writeStates fs (serializeTable t)
        ++ [{ fs with temp := none }] := by
      simpa [replace_file, writeStates] using hst
    rcases List.mem_cons.mp hst' with rfl | hst''
    · rfl
    rcases List.mem_append.mp hst'' with hw | hl
    · exact mem_ws _ hw
    · rw [List.mem_singleton.mp hl]

/-- C1 witness: a write-step failure on a concrete table and a concrete
pre-existing file. -/
theorem replace_file_atomic_witness :
    ((some UStep.write = some UStep.serialize ∨
      some UStep.write = some UStep.write ∨
      some UStep.write = some UStep.fsync) ∧
     (replace_file ⟨[⟨"/dev/sda1", "/", "ext4", "defaults", 0, 0, []⟩], [], [], true⟩
        (some UStep.write) ⟨["old line"], none⟩).1 = RResult.failed UStep.write ∧
     (replace_file ⟨[⟨"/dev/sda1", "/", "ext4", "defaults", 0, 0, []⟩], [], [], true⟩
        (some UStep.write) ⟨["old line"], none⟩).2.1.pathLines = ["old line"]) := by
  refine ⟨Or.inr (Or.inl rfl), ?_, ?_⟩
  · exact (replace_file_atomic _ _ _ (Or.inr (Or.inl rfl))).1
  · exact (replace_file_atomic _ _ _ (Or.inr (Or.inl rfl))).2.1

/-- C5: the entry returned by `copy_entry` shares no mutable state with
its source: mutating the copy's `options` field (or its attached comment
text) leaves every pre-existing heap cell — in particular the original
entry — unchanged, while the mutation does take effect on the copy. -/
theorem copy_entry_no_aliasing (h : Heap) (i : Nat) (hi : i < h.length) :
    ∀ (v : String) (c : List String) (k : Nat), k < h.length →
      (set_options (copy_entry h i).1 (copy_entry h i).2 v)[k]? = h[k]? ∧
      (set_comment (copy_entry h i).1 (copy_entry h i).2 c)[k]? = h[k]? ∧
      (set_options (copy_entry h i).1 (copy_entry h i).2 v)[(copy_entry h i).2]? =
        some { h.getD i defaultEntry with options := v } := by
  intro v c k hk
  refine ⟨?_, ?_, ?_⟩
  · rw [set_options, copy_entry, updateAt_append_last]
    rw [List.getElem?_append, if_pos hk]
  · rw [set_comment, copy_entry, updateAt_append_last]
    rw [List.getElem?_append, if_pos hk]
  · rw [set_options, copy_entry, updateAt_append_last]
    rw [List.getElem?_append, if_neg (by omega)]
    simp

/-- C5 witness: copying the single entry of a concrete heap and
mutating the copy's options and comment leaves the original unchanged. -/
theorem copy_entry_no_aliasing_witness :
    (0 < ([⟨"/dev/sda1", "/", "ext4", "defaults", 0, 0, []⟩] : Heap).length ∧
     0 < ([⟨"/dev/sda1", "/", "ext4", "defaults", 0, 0, []⟩] : Heap).length) ∧
    (set_options (copy_entry [⟨"/dev/sda1", "/", "ext4", "defaults", 0, 0, []⟩] 0).1
        (copy_entry [⟨"/dev/sda1", "/", "ext4", "defaults", 0, 0, []⟩] 0).2 "ro")[0]? =
      some ⟨"/dev/sda1", "/", "ext4", "defaults", 0, 0, []⟩ := by
  refine ⟨⟨by decide, by decide⟩, ?_⟩
  exact (copy_entry_no_aliasing _ 0 (by decide) "ro" ["# x"] 0 (by decide)).1

/-! ## Matcher lemmas and claims C4, C6, C8 -/

theorem findIn_eq_none (d : Direction) (p : Entry → Bool) (es : List Entry) :
    findIn d p es = none ↔ ∀ x ∈ es, p x = false := by
  cases d <;> simp [findIn, List.find?_eq_none]

theorem findIn_eq_some_mem (d : Direction) (p : Entry → Bool) (es : List Entry)
    (e : Entry) (h : findIn d p es = some e) : e ∈ es ∧ p e = true := by
  cases d with
  | forward => exact ⟨List.mem_of_find?_eq_some h, List.find?_some h⟩
  | backward =>
    exact ⟨List.mem_reverse.mp (List.mem_of_find?_eq_some h), List.find?_some h⟩

/-- Sample entries and tables used by concrete witnesses. -/
def eRoot : Entry := ⟨"/dev/sda1", "/", "ext4", "defaults", 0, 0, []⟩

def eA : Entry := ⟨"/dev/sda2", "/a", "ext4", "defaults", 0, 0, []⟩

def eAB : Entry := ⟨"/dev/sda3", "/a/b", "ext4", "defaults", 0, 0, []⟩

def tbl3 : Table := ⟨[eRoot, eA, eAB], [], [], false⟩

/-- C4: `find_pair` returns a match only when a single entry's source
and target match simultaneously, and returns no match whenever no single
entry matches both — even if one entry matches the source only and a
different entry matches the target only — so it is not the intersection
of independent `find_source` and `find_target` results. -/
theorem find_pair_requires_cooccurrence (tb : Table) (s t : String)
    (d : Direction) :
    (∀ e, find_pair tb s t d = some e →
      e ∈ tb.entries ∧ e.source = s ∧ e.target = t) ∧
    ((∀ e ∈ tb.entries, ¬(e.source = s ∧ e.target = t)) →
      find_pair tb s t d = none) := by
  constructor
  · intro e he
    obtain ⟨hmem, hp⟩ := findIn_eq_some_mem d _ _ e he
    simp only [Bool.and_eq_true, beq_iff_eq] at hp
    exact ⟨hmem, hp.1, hp.2⟩
  · intro hno
    rw [find_pair, findIn_eq_none]
    intro x hx
    have := hno x hx
    simp only [Bool.and_eq_false_iff] at *
    by_cases hs : x.source = s
    · right
      simp [beq_eq_false_iff_ne]
      intro ht
      exact this ⟨hs, ht⟩
    · left
      simp [beq_eq_false_iff_ne, hs]

/-- C4 witness: in a table where `eRoot` matches the source "/dev/sda1"
only and `eA` matches the target "/a" only, `find_pair` finds nothing
although `find_source` and `find_target` separately succeed. -/
theorem find_pair_requires_cooccurrence_witness :
    (∀ e ∈ tbl3.entries, ¬(e.source = "/dev/sda1" ∧ e.target = "/a")) ∧
    find_pair tbl3 "/dev/sda1" "/a" Direction.forward = none ∧
    find_source tbl3 "/dev/sda1" Direction.forward = some eRoot ∧
    find_target tbl3 "/a" Direction.forward = some eA := by
  refine ⟨by decide, ?_, by decide, by decide⟩
  exact (find_pair_requires_cooccurrence tbl3 "/dev/sda1" "/a"
    Direction.forward).2 (by decide)

/-- C6: every matcher query is read-only and total: it is a pure
function of the table (so the table and its entries are unchanged by
running it), and when no entry satisfies the query it returns the
explicit absence — `none` for the finders, `false` for
`is_fs_mounted` — rather than signaling failure, exactly when no
matching entry exists. -/
theorem queries_explicit_not_found (tb ref : Table) (v s t p : String)
    (d : Direction) (e : Entry) :
    (find_source tb v d = none ↔ ∀ x ∈ tb.entries, x.source ≠ v) ∧
    (find_target tb v d = none ↔ ∀ x ∈ tb.entries, x.target ≠ v) ∧
    (find_pair tb s t d = none ↔
      ∀ x ∈ tb.entries, ¬(x.source = s ∧ x.target = t)) ∧
    (find_mountpoint tb p d = none ↔
      ∀ c ∈ mountCandidates p, ∀ x ∈ tb.entries, x.target ≠ c) ∧
    (is_fs_mounted ref e = false ↔
      ∀ r ∈ ref.entries, ¬(r.target = e.target ∧ r.source = e.source)) := by
  refine ⟨?_, ?_, ?_, ?_, ?_⟩
  · rw [find_source, findIn_eq_none]
    simp [beq_eq_false_iff_ne]
  · rw [find_target, findIn_eq_none]
    simp [beq_eq_false_iff_ne]
  · rw [find_pair, findIn_eq_none]
    constructor
    · intro h x hx
      have := h x hx
      simp only [Bool.and_eq_false_iff, beq_eq_false_iff_ne] at this
      rintro ⟨h1, h2⟩
      rcases this with hc | hc
      · exact hc h1
      · exact hc h2
    · intro h x hx
      have := h x hx
      simp only [Bool.and_eq_false_iff, beq_eq_false_iff_ne]
      by_cases hs : x.source = s
      · right
        intro ht
        exact this ⟨hs, ht⟩
      · left
        exact hs
  · rw [find_mountpoint]
    rw [List.findSome?_eq_none_iff]
    constructor
    · intro h c hc x hx
      have := (findIn_eq_none d _ _).mp (h c hc) x hx
      simpa [beq_eq_false_iff_ne] using this
    · intro h c hc
      rw [find_target, findIn_eq_none]
      intro x hx
      simpa [beq_eq_false_iff_ne] using h c hc x hx
  · rw [is_fs_mounted]
    rw [List.any_eq_false]
    constructor
    · intro h r hr
      have := h r hr
      simp only [Bool.and_eq_true, beq_iff_eq] at this
      rintro ⟨h1, h2⟩
      exact this ⟨h1, h2⟩
    · intro h r hr
      have := h r hr
      simp only [Bool.and_eq_true, beq_iff_eq]
      rintro ⟨h1, h2⟩
      exact this ⟨h1, h2⟩

/-- C8: with several entries satisfying a query predicate, the entry
returned is the first match encountered in the requested scan direction:
forward returns the match that every earlier entry (in file order) fails
to be, backward the match that every later entry fails to be; this is
the whole guarantee relating the two directions. -/
theorem findIn_first_match (tb : Table) (p : Entry → Bool) (e : Entry) :
    (findIn Direction.forward p tb.entries = some e ↔
      p e = true ∧ ∃ l₁ l₂, tb.entries = l₁ ++ e :: l₂ ∧
        ∀ x ∈ l₁, p x = false) ∧
    (findIn Direction.backward p tb.entries = some e ↔
      p e = true ∧ ∃ l₁ l₂, tb.entries = l₁ ++ e :: l₂ ∧
        ∀ x ∈ l₂, p x = false) := by
  constructor
  · exact find?_eq_some_split p tb.entries e
  · rw [show findIn Direction.backward p tb.entries
        = tb.entries.reverse.find? p from rfl]
    rw [find?_eq_some_split]
    constructor
    · rintro ⟨hp, l₁, l₂, heq, h₁⟩
      exact ⟨hp, l₂.reverse, l₁.reverse,
        (reverse_eq_append_cons_iff _ _ _ _).mp heq,
        fun x hx => h₁ x (by simpa using hx)⟩
    · rintro ⟨hp, l₁, l₂, heq, h₂⟩
      refine ⟨hp, l₂.reverse, l₁.reverse, ?_,
        fun x hx => h₂ x (by simpa using hx)⟩
      rw [reverse_eq_append_cons_iff]
      simpa using heq

/-! ## Parser step lemmas -/

theorem parseLoop_nil (c : Bool) (fname : String) (sink : String → Nat → Int)
    (ln : Nat) (st : PState) :
    parseLoop c fname sink [] ln st = (Except.ok (finishTable c st), st.calls) := rfl

theorem parseLoop_cb (c : Bool) (fname : String) (sink : String → Nat → Int)
    (l : String) (rest : List String) (ln : Nat) (st : PState)
    (h : cbLine l = true) :
    parseLoop c fname sink (l :: rest) ln st
      = parseLoop c fname sink rest (ln + 1)
          { st with pending := if c then st.pending ++ [l] else [] } := by
  simp only [parseLoop, h, if_true]

theorem parseLoop_data (c : Bool) (fname : String) (sink : String → Nat → Int)
    (l : String) (rest : List String) (ln : Nat) (st : PState)
    (mk : List String → Entry) (h : cbLine l = false)
    (hmk : mkEntryFields (splitWordsChars l.toList) = some mk) :
    parseLoop c fname sink (l :: rest) ln st
      = parseLoop c fname sink rest (ln + 1)
          { rentries := st.rentries ++ [mk (commentSplit st.pending).2],
            intro := if st.started then st.intro else (commentSplit st.pending).1,
            pending := [], started := true, calls := st.calls } := by
  simp only [parseLoop, h, Bool.false_eq_true, if_false, hmk]

theorem parseLoop_bad_continue (c : Bool) (fname : String)
    (sink : String → Nat → Int) (l : String) (rest : List String) (ln : Nat)
    (st : PState) (h : cbLine l = false)
    (hmk : mkEntryFields (splitWordsChars l.toList) = none)
    (hs : sink fname ln > 0) :
    parseLoop c fname sink (l :: rest) ln st
      = parseLoop c fname sink rest (ln + 1)
          { st with calls := st.calls ++ [(fname, ln)] } := by
  simp only [parseLoop, h, Bool.false_eq_true, if_false, hmk, hs, if_true]

theorem parseLoop_bad_abort (c : Bool) (fname : String)
    (sink : String → Nat → Int) (l : String) (rest : List String) (ln : Nat)
    (st : PState) (h : cbLine l = false)
    (hmk : mkEntryFields (splitWordsChars l.toList) = none)
    (hs : ¬sink fname ln > 0) :
    parseLoop c fname sink (l :: rest) ln st
      = (Except.error (fname, ln), st.calls ++ [(fname, ln)]) := by
  simp only [parseLoop, h, Bool.false_eq_true, if_false, hmk, hs]

/-! ## Malformed-line bookkeeping -/

/-- A malformed line: a data line (neither blank nor comment) whose
fields do not form an entry. -/
def malformedLine (l : String) : Bool :=
  !cbLine l && (mkEntryFields (splitWordsChars l.toList)).isNone

/-- The 1-based numbers of the malformed lines of a line list whose
first line is numbered `k`. -/
def malformedFrom (k : Nat) : List String → List Nat
  | [] => []
  | l :: rest =>
    if malformedLine l then k :: malformedFrom (k + 1) rest
    else malformedFrom (k + 1) rest

theorem malformedFrom_ge (k : Nat) (ls : List String) :
    ∀ m ∈ malformedFrom k ls, k ≤ m := by
  induction ls generalizing k with
  | nil => simp [malformedFrom]
  | cons l rest ih =>
    intro m hm
    by_cases h : malformedLine l <;> simp [malformedFrom, h] at hm
    · rcases hm with rfl | hm
      · omega
      · have := ih (k + 1) m hm
        omega
    · have := ih (k + 1) m hm
      omega

theorem malformedFrom_chain (k : Nat) (ls : List String) :
    List.Chain' (· < ·) (malformedFrom k ls) := by
  induction ls generalizing k with
  | nil => simp [malformedFrom]
  | cons l rest ih =>
    by_cases h : malformedLine l <;> simp [malformedFrom, h]
    · rw [List.chain'_cons']
      refine ⟨?_, ih (k + 1)⟩
      intro b hb
      have hmem : b ∈ malformedFrom (k + 1) rest := by
        cases hh : (malformedFrom (k + 1) rest).head? with
        | none => rw [hh] at hb; cases hb
        | some x =>
          rw [hh] at hb
          cases hb
          exact List.mem_of_mem_head? hh
      have := malformedFrom_ge (k + 1) rest b hmem
      omega
    · exact ih (k + 1)

/-! ## Error-policy lemmas -/

theorem parseLoop_skip_malformed (c : Bool) (fname : String)
    (sink : String → Nat → Int) (lines : List String) :
    ∀ (ln ln' : Nat) (st : PState) (cl' : List (String × Nat)),
      (∀ n ∈ malformedFrom ln lines, sink fname n > 0) →
      (parseLoop c fname sink lines ln st).1
        = (parseLoop c fname sink (lines.filter (fun l => !malformedLine l)) ln'
            { st with calls := cl' }).1 := by
  induction lines with
  | nil => intro ln ln' st cl' _; rfl
  | cons l rest ih =>
    intro ln ln' st cl' h
    by_cases hcb : cbLine l
    · have hml : malformedLine l = false := by simp [malformedLine, hcb]
      have hfil : (l :: rest).filter (fun l => !malformedLine l)
          = l :: rest.filter (fun l => !malformedLine l) := by
        simp [List.filter_cons, hml]
      rw [hfil, parseLoop_cb c fname sink l _ ln st hcb,
        parseLoop_cb c fname sink l _ ln' _ hcb]
      exact ih (ln + 1) (ln' + 1) _ cl'
        (by simpa [malformedFrom, hml] using h)
    · have hcb' : cbLine l = false := by simpa using hcb
      cases hmk : mkEntryFields (splitWordsChars l.toList) with
      | some mk =>
        have hmk2 : mkEntryFields (splitWordsChars l.data) = some mk := hmk
        have hml : malformedLine l = false := by
          simp [malformedLine, hmk2]
        have hfil : (l :: rest).filter (fun l => !malformedLine l)
            = l :: rest.filter (fun l => !malformedLine l) := by
          simp [List.filter_cons, hml]
        rw [hfil, parseLoop_data c fname sink l _ ln st mk hcb' hmk,
          parseLoop_data c fname sink l _ ln' _ mk hcb' hmk]
        exact ih (ln + 1) (ln' + 1) _ cl'
          (by simpa [malformedFrom, hml] using h)
      | none =>
        have hmk2 : mkEntryFields (splitWordsChars l.data) = none := hmk
        have hml : malformedLine l = true := by
          simp [malformedLine, hcb', hmk2]
        have hfil : (l :: rest).filter (fun l => !malformedLine l)
            = rest.filter (fun l => !malformedLine l) := by
          simp [List.filter_cons, hml]
        have hs : sink fname ln > 0 := by
          refine h ln ?_
          simp [malformedFrom, hml]
        rw [hfil, parseLoop_bad_continue c fname sink l _ ln st hcb' hmk hs]
        exact ih (ln + 1) ln' _ cl'
          (by
            intro n hn
            refine h n ?_
            simp [malformedFrom, hml]
            right
            exact hn)

theorem parseLoop_continue_trace (c : Bool) (fname : String)
    (sink : String → Nat → Int) (lines : List String) :
    ∀ (ln : Nat) (st : PState),
      (∀ n ∈ malformedFrom ln lines, sink fname n > 0) →
      ∃ t, parseLoop c fname sink lines ln st
        = (Except.ok t,
           st.calls ++ (malformedFrom ln lines).map (fun n => (fname, n))) := by
  induction lines with
  | nil =>
    intro ln st _
    exact ⟨finishTable c st, by simp [parseLoop_nil, malformedFrom]⟩
  | cons l rest ih =>
    intro ln st h
    by_cases hcb : cbLine l
    · have hml : malformedLine l = false := by simp [malformedLine, hcb]
      rw [parseLoop_cb c fname sink l _ ln st hcb]
      obtain ⟨t, ht⟩ := ih (ln + 1) _ (by simpa [malformedFrom, hml] using h)
      exact ⟨t, by simpa [malformedFrom, hml] using ht⟩
    · have hcb' : cbLine l = false := by simpa using hcb
      cases hmk : mkEntryFields (splitWordsChars l.toList) with
      | some mk =>
        have hmk2 : mkEntryFields (splitWordsChars l.data) = some mk := hmk
        have hml : malformedLine l = false := by simp [malformedLine, hmk2]
        rw [parseLoop_data c fname sink l _ ln st mk hcb' hmk]
        obtain ⟨t, ht⟩ := ih (ln + 1) _ (by simpa [malformedFrom, hml] using h)
        exact ⟨t, by simpa [malformedFrom, hml] using ht⟩
      | none =>
        have hmk2 : mkEntryFields (splitWordsChars l.data) = none := hmk
        have hml : malformedLine l = true := by
          simp [malformedLine, hcb', hmk2]
        have hs : sink fname ln > 0 := by
          refine h ln ?_
          simp [malformedFrom, hml]
        rw [parseLoop_bad_continue c fname sink l _ ln st hcb' hmk hs]
        obtain ⟨t, ht⟩ := ih (ln + 1)
          { st with calls := st.calls ++ [(fname, ln)] }
          (by
            intro n hn
            refine h n ?_
            simp [malformedFrom, hml]
            right
            exact hn)
        refine ⟨t, ?_⟩
        rw [ht]
        simp [malformedFrom, hml]

theorem parseLoop_abort_trace (c : Bool) (fname : String)
    (sink : String → Nat → Int) (lines : List String) :
    ∀ (ln : Nat) (st : PState) (n : Nat),
      n ∈ malformedFrom ln lines → ¬sink fname n > 0 →
      (∀ m ∈ malformedFrom ln lines, m < n → sink fname m > 0) →
      parseLoop c fname sink lines ln st
        = (Except.error (fname, n),
           st.calls ++ ((malformedFrom ln lines).filter
             (fun m => m ≤ n)).map (fun m => (fname, m))) := by
  induction lines with
  | nil => intro ln st n hn; cases hn
  | cons l rest ih =>
    intro ln st n hn hneg hfirst
    by_cases hcb : cbLine l
    · have hml : malformedLine l = false := by simp [malformedLine, hcb]
      rw [parseLoop_cb c fname sink l _ ln st hcb]
      rw [ih (ln + 1) _ n (by simpa [malformedFrom, hml] using hn) hneg
        (by simpa [malformedFrom, hml] using hfirst)]
      simp [malformedFrom, hml]
    · have hcb' : cbLine l = false := by simpa using hcb
      cases hmk : mkEntryFields (splitWordsChars l.toList) with
      | some mk =>
        have hmk2 : mkEntryFields (splitWordsChars l.data) = some mk := hmk
        have hml : malformedLine l = false := by simp [malformedLine, hmk2]
        rw [parseLoop_data c fname sink l _ ln st mk hcb' hmk]
        rw [ih (ln + 1) _ n (by simpa [malformedFrom, hml] using hn) hneg
          (by simpa [malformedFrom, hml] using hfirst)]
        simp [malformedFrom, hml]
      | none =>
        have hmk2 : mkEntryFields (splitWordsChars l.data) = none := hmk
        have hml : malformedLine l = true := by
          simp [malformedLine, hcb', hmk2]
        have hmem : malformedFrom ln (l :: rest)
            = ln :: malformedFrom (ln + 1) rest := by
          simp [malformedFrom, hml]
        by_cases hln : ln = n
        · subst hln
          rw [parseLoop_bad_abort c fname sink l _ ln st hcb' hmk hneg]
          have hrest : ∀ m ∈ malformedFrom (ln + 1) rest, ¬m ≤ ln := by
            intro m hm
            have := malformedFrom_ge (ln + 1) rest m hm
            omega
          rw [hmem]
          simp only [List.filter_cons, decide_eq_true_eq, Nat.le_refl,
            if_true]
          rw [List.filter_eq_nil_iff.mpr (by
            intro m hm
            simpa using hrest m hm)]
          simp
        · have hlt : ln < n := by
            rw [hmem] at hn
            rcases List.mem_cons.mp hn with rfl | hn'
            · omega
            · have := malformedFrom_ge (ln + 1) rest n hn'
              rcases Nat.lt_or_ge ln n with h1 | h1
              · exact h1
              · omega
          have hs : sink fname ln > 0 := by
            refine hfirst ln ?_ hlt
            rw [hmem]; simp
          rw [parseLoop_bad_continue c fname sink l _ ln st hcb' hmk hs]
          have hn' : n ∈ malformedFrom (ln + 1) rest := by
            rw [hmem] at hn
            rcases List.mem_cons.mp hn with rfl | hn'
            · omega
            · exact hn'
          rw [ih (ln + 1) _ n hn' hneg
            (by
              intro m hm hmn
              refine hfirst m ?_ hmn
              rw [hmem]; simp [hm])]
          rw [hmem]
          simp only [List.filter_cons, decide_eq_true_eq,
            Nat.le_of_lt hlt, if_true]
          simp [Nat.le_of_lt hlt]

/-- C7: on each malformed data line the parser invokes the error sink
exactly once with the file identifier and that line's 1-based number
(the invocation trace lists the malformed line numbers in strictly
increasing order, so no line is reported twice); when the sink keeps
answering positively the parse succeeds and its result is that of
parsing the input with the malformed lines removed (each such line is
skipped); at the first non-positive answer the whole parse aborts,
yielding no table but the diagnostic naming the file and the offending
line, with the sink having been invoked once per malformed line up to
and including that one. -/
theorem parse_error_sink_policy (c : Bool) (fname : String)
    (sink : String → Nat → Int) (lines : List String) :
    List.Chain' (fun a b => a < b) (malformedFrom 1 lines) ∧
    ((∀ n ∈ malformedFrom 1 lines, sink fname n > 0) →
      (∃ t, parseLines c fname sink lines
        = (Except.ok t, (malformedFrom 1 lines).map (fun n => (fname, n)))) ∧
      (parseLines c fname sink lines).1
        = (parseLines c fname sink
            (lines.filter (fun l => !malformedLine l))).1) ∧
    (∀ n, n ∈ malformedFrom 1 lines → ¬sink fname n > 0 →
      (∀ m ∈ malformedFrom 1 lines, m < n → sink fname m > 0) →
      parseLines c fname sink lines
        = (Except.error (fname, n),
           ((malformedFrom 1 lines).filter (fun m => m ≤ n)).map
             (fun m => (fname, m)))) := by
  refine ⟨malformedFrom_chain 1 lines, ?_, ?_⟩
  · intro h
    constructor
    · obtain ⟨t, ht⟩ := parseLoop_continue_trace c fname sink lines 1
        ⟨[], [], [], false, []⟩ h
      exact ⟨t, by simpa [parseLines] using ht⟩
    · exact parseLoop_skip_malformed c fname sink lines 1 1
        ⟨[], [], [], false, []⟩ [] h
  · intro n hn hneg hfirst
    have := parseLoop_abort_trace c fname sink lines 1
      ⟨[], [], [], false, []⟩ n hn hneg hfirst
    simpa [parseLines] using this

/-- C7 witness: two malformed lines; the sink accepts line 2 and rejects
line 3, so the parse aborts at line 3 after reporting lines 2 and 3 once
each. -/
theorem parse_error_sink_policy_witness :
    (3 ∈ malformedFrom 1
      ["/dev/sda1 / ext4 defaults", "bad", "bad2 2", "a b c d"] ∧
     ¬(fun _ n => if n = 3 then (0 : Int) else 1) "f" 3 > 0 ∧
     (∀ m ∈ malformedFrom 1
        ["/dev/sda1 / ext4 defaults", "bad", "bad2 2", "a b c d"],
        m < 3 → (fun _ n => if n = 3 then (0 : Int) else 1) "f" m > 0)) ∧
    parseLines true "f" (fun _ n => if n = 3 then (0 : Int) else 1)
      ["/dev/sda1 / ext4 defaults", "bad", "bad2 2", "a b c d"]
      = (Except.error ("f", 3), [("f", 2), ("f", 3)]) := by
  refine ⟨⟨by decide, by decide, by decide⟩, ?_⟩
  have := (parse_error_sink_policy true "f"
    (fun _ n => if n = 3 then (0 : Int) else 1)
    ["/dev/sda1 / ext4 defaults", "bad", "bad2 2", "a b c d"]).2.2
    3 (by decide) (by decide) (by decide)
  rw [this]
  rfl

/-- C10: when the registered parse-error callback returns a positive
value for every malformed line, each such line is skipped (the result
equals that of parsing the input with those lines removed), parsing
continues to the end and succeeds with a table, and the callback
received exactly the file name and the 1-based number of each offending
line. -/
theorem parse_positive_callback_continues (c : Bool) (fname : String)
    (sink : String → Nat → Int) (lines : List String)
    (hpos : ∀ n ∈ malformedFrom 1 lines, sink fname n > 0) :
    (∃ t, (parseLines c fname sink lines).1 = Except.ok t) ∧
    (parseLines c fname sink lines).2
      = (malformedFrom 1 lines).map (fun n => (fname, n)) ∧
    (parseLines c fname sink lines).1
      = (parseLines c fname sink
          (lines.filter (fun l => !malformedLine l))).1 := by
  obtain ⟨t, ht⟩ := parseLoop_continue_trace c fname sink lines 1
    ⟨[], [], [], false, []⟩ hpos
  refine ⟨⟨t, ?_⟩, ?_, ?_⟩
  · rw [parseLines, ht]
  · rw [parseLines, ht]
    simp
  · exact parseLoop_skip_malformed c fname sink lines 1 1
      ⟨[], [], [], false, []⟩ [] hpos

/-- C10 witness: a callback returning 1 on the single malformed line 2;
the parse succeeds, the trace is exactly [("fstab", 2)], and the result
equals the parse of the remaining lines. -/
theorem parse_positive_callback_continues_witness :
    (∀ n ∈ malformedFrom 1 ["/dev/sda1 / ext4 defaults 0 1", "bad"],
      (fun _ _ => (1 : Int)) "fstab" n > 0) ∧
    (∃ t, (parseLines true "fstab" (fun _ _ => (1 : Int))
      ["/dev/sda1 / ext4 defaults 0 1", "bad"]).1 = Except.ok t) ∧
    (parseLines true "fstab" (fun _ _ => (1 : Int))
      ["/dev/sda1 / ext4 defaults 0 1", "bad"]).2 = [("fstab", 2)] := by
  refine ⟨by decide, ?_, ?_⟩
  · exact (parse_positive_callback_continues true "fstab" (fun _ _ => (1 : Int))
      ["/dev/sda1 / ext4 defaults 0 1", "bad"] (by decide)).1
  · have := (parse_positive_callback_continues true "fstab" (fun _ _ => (1 : Int))
      ["/dev/sda1 / ext4 defaults 0 1", "bad"] (by decide)).2.1
    rw [this]
    decide

/-- The first entry of the worked example of the spec. -/
def eSda1 : Entry := ⟨"/dev/sda1", "/", "ext4", "defaults", 0, 1, []⟩

/-- The second (swap) entry of the worked example of the spec. -/
def eSwap : Entry := ⟨"/dev/sda2", "swap", "swap", "sw", 0, 0, ["# swap"]⟩

/-- The table of the worked example of the spec. -/
def tSwap : Table := ⟨[eSda1, eSwap], [], [], true⟩

/-- C9: parsing the example text with comments enabled yields exactly
two entries; the comment line immediately preceding the second data line
attaches as that entry's comment "# swap" and does not appear in the
(empty) intro comment; find_target "swap" forward returns that entry and
find_target "/nonexistent" returns no match. -/
theorem parse_example_swap :
    parseText true "fstab" (fun _ _ => 1)
      "/dev/sda1 / ext4 defaults 0 1\n# swap\n/dev/sda2 swap swap sw 0 0\n"
      = (Except.ok tSwap, []) ∧
    tSwap.entries.length = 2 ∧
    eSwap.comment = ["# swap"] ∧
    tSwap.intro_comment = [] ∧
    tSwap.trailing_comment = [] ∧
    find_target tSwap "swap" Direction.forward = some eSwap ∧
    find_target tSwap "/nonexistent" Direction.forward = none := by
  refine ⟨rfl, by decide, by decide, by decide, by decide, by decide, by decide⟩

/-! ## Path lemmas for mountpoint resolution -/

/-- A valid path component: nonempty and free of the separator. -/
def validComp (w : List Char) : Bool :=
  !w.isEmpty && w.all (fun c => c != '/')

/-- A valid (normalized, absolute) component list. -/
def validComps (cs : List (List Char)) : Bool := cs.all validComp

theorem splitOnCharAux_no_sep (sep : Char) (w acc : List Char)
    (hw : ∀ c ∈ w, (c == sep) = false) :
    splitOnCharAux sep w acc = [acc.reverse ++ w] := by
  induction w generalizing acc with
  | nil => simp [splitOnCharAux]
  | cons c w ih =>
    have hc := hw c (by simp)
    rw [splitOnCharAux, if_neg (by simp [hc])]
    rw [ih _ (fun d hd => hw d (by simp [hd]))]
    simp

theorem splitOnCharAux_sep_split (sep : Char) (w acc r : List Char)
    (hw : ∀ c ∈ w, (c == sep) = false) :
    splitOnCharAux sep (w ++ sep :: r) acc
      = (acc.reverse ++ w) :: splitOnCharAux sep r [] := by
  induction w generalizing acc with
  | nil =>
    rw [List.nil_append, splitOnCharAux, if_pos (by simp)]
    simp
  | cons c w ih =>
    have hc := hw c (by simp)
    rw [List.cons_append, splitOnCharAux, if_neg (by simp [hc])]
    rw [ih _ (fun d hd => hw d (by simp [hd]))]
    simp

theorem splitOnChar_joinSep (sep : Char) (cs : List (List Char))
    (hcs : cs ≠ [])
    (hns : ∀ w ∈ cs, ∀ c ∈ w, (c == sep) = false) :
    splitOnCharAux sep (joinSepChars sep cs) [] = cs := by
  induction cs with
  | nil => exact absurd rfl hcs
  | cons w ws ih =>
    cases ws with
    | nil =>
      rw [joinSepChars, splitOnCharAux_no_sep sep w []
        (hns w (by simp))]
      simp
    | cons w2 ws2 =>
      rw [show joinSepChars sep (w :: w2 :: ws2)
          = w ++ sep :: joinSepChars sep (w2 :: ws2) from rfl]
      rw [splitOnCharAux_sep_split sep w [] _ (hns w (by simp))]
      rw [ih (by simp) (fun v hv c hc => hns v (by simp [hv]) c hc)]
      simp

theorem pathComponents_renderPath (cs : List (List Char))
    (hv : validComps cs = true) :
    pathComponents (renderPath cs) = cs := by
  have hns : ∀ w ∈ cs, ∀ c ∈ w, (c == '/') = false := by
    intro w hw c hc
    have hvw := (List.all_eq_true.mp hv) w hw
    simp only [validComp, Bool.and_eq_true, List.all_eq_true] at hvw
    have := hvw.2 c hc
    simpa using this
  have hne : ∀ w ∈ cs, w.isEmpty = false := by
    intro w hw
    have hvw := (List.all_eq_true.mp hv) w hw
    simp only [validComp, Bool.and_eq_true] at hvw
    simpa using hvw.1
  cases hcs : cs with
  | nil => rfl
  | cons w ws =>
    rw [← hcs]
    rw [pathComponents, renderPath]
    rw [show (String.mk ('/' :: joinSepChars '/' cs)).toList
        = '/' :: joinSepChars '/' cs from rfl]
    rw [splitOnChar, splitOnCharAux, if_pos (by simp)]
    rw [splitOnChar_joinSep '/' cs (by simp [hcs]) hns]
    rw [List.filter_cons]
    simp only [List.reverse_nil, List.isEmpty_nil, Bool.not_true,
      Bool.false_eq_true, if_false]
    rw [List.filter_eq_self.mpr]
    intro w hw
    simp [hne w hw]

theorem ancestorComps_eq_takes (rs : List (List Char)) :
    ancestorComps rs
      = ((List.range rs.length).reverse).map (fun k => rs.reverse.take k) := by
  induction rs with
  | nil => simp [ancestorComps]
  | cons r rs ih =>
    rw [ancestorComps, ih]
    rw [show (r :: rs).length = rs.length + 1 from rfl]
    rw [List.range_succ, List.reverse_append]
    simp only [List.reverse_cons, List.reverse_nil, List.nil_append,
      List.singleton_append, List.map_cons]
    congr 1
    · rw [← List.length_reverse rs, List.take_left]
    · apply List.map_congr_left
      intro k hk
      have hk2 : k < rs.length := by
        simpa using List.mem_reverse.mp hk
      exact (List.take_append_of_le_length
        (by simpa using Nat.le_of_lt hk2)).symm

theorem mountCandidates_renderPath (cs : List (List Char))
    (hv : validComps cs = true) :
    mountCandidates (renderPath cs)
      = ((List.range (cs.length + 1)).reverse).map
          (fun k => renderPath (cs.take k)) := by
  rw [mountCandidates, pathComponents_renderPath cs hv]
  rw [ancestorComps_eq_takes]
  rw [List.range_succ, List.reverse_append]
  simp only [List.reverse_cons, List.reverse_nil, List.nil_append,
    List.singleton_append, List.map_cons, List.map_map]
  congr 1
  · rw [List.take_length]
  · simp [Function.comp]

theorem scanFindDec (ks : List Nat) (hsort : ks.Pairwise (fun a b => a > b))
    (g : Nat → String) (tb : Table) (d : Direction) (e : Entry)
    (h : (ks.map g).findSome? (fun c => find_target tb c d) = some e) :
    ∃ k ∈ ks, find_target tb (g k) d = some e ∧
      ∀ j ∈ ks, k < j → find_target tb (g j) d = none := by
  induction ks with
  | nil => simp at h
  | cons k0 ks ih =>
    rw [List.map_cons, List.findSome?_cons] at h
    cases hc : find_target tb (g k0) d with
    | some e0 =>
      rw [hc] at h
      injection h with h
      subst h
      refine ⟨k0, by simp, hc, ?_⟩
      intro j hj hlt
      rcases List.mem_cons.mp hj with rfl | hj
      · omega
      · have := (List.pairwise_cons.mp hsort).1 j hj
        omega
    | none =>
      rw [hc] at h
      obtain ⟨k, hk, hfk, hrest⟩ := ih (List.pairwise_cons.mp hsort).2 h
      refine ⟨k, by simp [hk], hfk, ?_⟩
      intro j hj hlt
      rcases List.mem_cons.mp hj with rfl | hj
      · exact hc
      · exact hrest j hj hlt

/-- C3: over a normalized absolute path, `find_mountpoint` returns an
entry of the table whose target is the longest ancestor path of the
query (exact match included): the lookup tries the literal path and then
repeatedly strips the last component down to the root, so a returned
entry's target is an ancestor prefix and no entry of the table has a
strictly longer ancestor-prefix target; and it returns `none` exactly
when no entry's target is any ancestor of the query. -/
theorem find_mountpoint_longest_ancestor (tb : Table) (d : Direction)
    (cs : List (List Char)) (hv : validComps cs = true) :
    (∀ e, find_mountpoint tb (renderPath cs) d = some e →
      e ∈ tb.entries ∧ ∃ k, k ≤ cs.length ∧
        e.target = renderPath (cs.take k) ∧
        ∀ e' ∈ tb.entries, ∀ j, j ≤ cs.length →
          e'.target = renderPath (cs.take j) → j ≤ k) ∧
    (find_mountpoint tb (renderPath cs) d = none →
      ∀ e' ∈ tb.entries, ∀ j, j ≤ cs.length →
        e'.target ≠ renderPath (cs.take j)) := by
  have hcand := mountCandidates_renderPath cs hv
  have hsort : ((List.range (cs.length + 1)).reverse).Pairwise
      (fun a b => a > b) := by
    rw [List.pairwise_reverse]
    simpa using List.pairwise_lt_range (cs.length + 1)
  constructor
  · intro e he
    rw [find_mountpoint, hcand] at he
    obtain ⟨k, hkmem, hfk, hrest⟩ := scanFindDec _ hsort _ tb d e he
    have hk : k ≤ cs.length := by
      have := List.mem_range.mp (List.mem_reverse.mp hkmem)
      omega
    obtain ⟨hmem, hp⟩ := findIn_eq_some_mem d _ _ e hfk
    refine ⟨hmem, k, hk, by simpa using hp, ?_⟩
    intro e' he' j hj htj
    by_contra hgt
    push_neg at hgt
    have hjmem : j ∈ (List.range (cs.length + 1)).reverse := by
      rw [List.mem_reverse, List.mem_range]
      omega
    have hnone := hrest j hjmem hgt
    have hnone2 : findIn d (fun x => x.target == renderPath (cs.take j))
        tb.entries = none := hnone
    have := (findIn_eq_none d _ _).mp hnone2 e' he'
    rw [beq_eq_false_iff_ne] at this
    exact this htj
  · intro hnone e' he' j hj htj
    rw [find_mountpoint, hcand, List.findSome?_eq_none_iff] at hnone
    have hjmem : renderPath (cs.take j)
        ∈ ((List.range (cs.length + 1)).reverse).map
            (fun k => renderPath (cs.take k)) := by
      refine List.mem_map.mpr ⟨j, ?_, rfl⟩
      rw [List.mem_reverse, List.mem_range]
      omega
    have hnone2 : findIn d (fun x => x.target == renderPath (cs.take j))
        tb.entries = none := hnone _ hjmem
    have := (findIn_eq_none d _ _).mp hnone2 e' he'
    rw [beq_eq_false_iff_ne] at this
    exact this htj

/-- C3 witness: over the table with targets "/", "/a", "/a/b", the
query "/a/b/c" resolves to the "/a/b" entry, which the theorem
certifies as the longest ancestor present; the query "/x/y", which has
no deeper ancestor in the table, resolves to the "/" entry. -/
theorem find_mountpoint_longest_ancestor_witness :
    (validComps [['a'], ['b'], ['c']] = true ∧
     find_mountpoint tbl3 (renderPath [['a'], ['b'], ['c']])
       Direction.forward = some eAB) ∧
    (eAB ∈ tbl3.entries ∧ ∃ k, k ≤ ([['a'], ['b'], ['c']] : List (List Char)).length ∧
      eAB.target = renderPath (([['a'], ['b'], ['c']] : List (List Char)).take k) ∧
      ∀ e' ∈ tbl3.entries, ∀ j, j ≤ ([['a'], ['b'], ['c']] : List (List Char)).length →
        e'.target = renderPath (([['a'], ['b'], ['c']] : List (List Char)).take j) → j ≤ k) ∧
    eAB.target = "/a/b" ∧
    find_mountpoint tbl3 (renderPath [['x'], ['y']]) Direction.forward
      = some eRoot := by
  refine ⟨⟨by decide, by decide⟩, ?_, by decide, by decide⟩
  exact (find_mountpoint_longest_ancestor tbl3 Direction.forward
    [['a'], ['b'], ['c']] (by decide)).1 eAB (by decide)

/-! ## Word-splitter lemmas (towards the round-trip) -/

theorem splitWordsAux_word (w : List Char) :
    ∀ (cs acc : List Char), (∀ c ∈ w, isWS c = false) →
      splitWordsAux (w ++ cs) acc = splitWordsAux cs (w.reverse ++ acc) := by
  induction w with
  | nil => intro cs acc _; simp
  | cons c w ih =>
    intro cs acc hw
    rw [List.cons_append, splitWordsAux, if_neg (by simp [hw c (by simp)])]
    rw [ih cs (c :: acc) (fun d hd => hw d (by simp [hd]))]
    simp

theorem splitWordsChars_join (ws : List (List Char))
    (hne : ∀ w ∈ ws, w ≠ []) (hnw : ∀ w ∈ ws, ∀ c ∈ w, isWS c = false) :
    splitWordsChars (joinSepChars ' ' ws) = ws := by
  induction ws with
  | nil => rfl
  | cons w ws ih =>
    cases ws with
    | nil =>
      have hw := hnw w (by simp)
      have hstep : splitWordsAux (w ++ []) [] = splitWordsAux [] (w.reverse ++ []) :=
        splitWordsAux_word w [] [] hw
      rw [List.append_nil, List.append_nil] at hstep
      rw [joinSepChars, splitWordsChars, hstep, splitWordsAux]
      rw [if_neg (by
        simp only [List.isEmpty_eq_true, List.reverse_eq_nil_iff]
        exact hne w (by simp))]
      simp
    | cons w2 ws2 =>
      rw [show joinSepChars ' ' (w :: w2 :: ws2)
          = w ++ ' ' :: joinSepChars ' ' (w2 :: ws2) from rfl]
      rw [splitWordsChars,
        splitWordsAux_word w _ [] (fun c hc => hnw w (by simp) c hc)]
      rw [splitWordsAux, if_pos (by decide)]
      rw [if_neg (by
        simp only [List.isEmpty_eq_true, List.append_nil]
        intro h
        exact hne w (by simp) (by simpa using congrArg List.reverse h))]
      rw [show splitWordsAux (joinSepChars ' ' (w2 :: ws2)) []
          = splitWordsChars (joinSepChars ' ' (w2 :: ws2)) from rfl]
      rw [ih (fun v hv => hne v (by simp [hv]))
        (fun v hv c hc => hnw v (by simp [hv]) c hc)]
      simp

theorem splitWordsAux_words_ok (cs : List Char) :
    ∀ acc, (∀ c ∈ acc, isWS c = false) →
      ∀ w ∈ splitWordsAux cs acc, w ≠ [] ∧ ∀ c ∈ w, isWS c = false := by
  induction cs with
  | nil =>
    intro acc hacc w hw
    rw [splitWordsAux] at hw
    by_cases he : acc.isEmpty
    · rw [if_pos he] at hw
      cases hw
    · rw [if_neg he] at hw
      rcases List.mem_singleton.mp hw with rfl
      refine ⟨?_, ?_⟩
      · intro h
        have : acc = [] := by simpa using congrArg List.reverse h
        rw [this] at he
        exact he rfl
      · intro c hc
        exact hacc c (List.mem_reverse.mp hc)
  | cons c0 cs ih =>
    intro acc hacc w hw
    rw [splitWordsAux] at hw
    by_cases hws : isWS c0
    · rw [if_pos hws] at hw
      by_cases he : acc.isEmpty
      · rw [if_pos he] at hw
        exact ih [] (by simp) w hw
      · rw [if_neg he] at hw
        rcases List.mem_cons.mp hw with rfl | hw
        · refine ⟨?_, ?_⟩
          · intro h
            have : acc = [] := by simpa using congrArg List.reverse h
            rw [this] at he
            exact he rfl
          · intro c hc
            exact hacc c (List.mem_reverse.mp hc)
        · exact ih [] (by simp) w hw
    · rw [if_neg hws] at hw
      refine ih (c0 :: acc) ?_ w hw
      intro d hd
      rcases List.mem_cons.mp hd with rfl | hd
      · simpa using hws
      · exact hacc d hd

theorem splitWordsAux_acc_head (cs : List Char) :
    ∀ acc, acc ≠ [] →
      ∃ ext rest, splitWordsAux cs acc = (acc.reverse ++ ext) :: rest := by
  induction cs with
  | nil =>
    intro acc hacc
    rw [splitWordsAux, if_neg (by simpa using hacc)]
    exact ⟨[], [], by simp⟩
  | cons c0 cs ih =>
    intro acc hacc
    rw [splitWordsAux]
    by_cases hws : isWS c0
    · rw [if_pos hws, if_neg (by simpa using hacc)]
      exact ⟨[], splitWordsAux cs [], by simp⟩
    · rw [if_neg hws]
      obtain ⟨ext, rest, hr⟩ := ih (c0 :: acc) (by simp)
      refine ⟨c0 :: ext, rest, ?_⟩
      rw [hr]
      simp

theorem splitWordsChars_head (cs : List Char) (c : Char) (cs' : List Char)
    (h : cs.dropWhile isWS = c :: cs') :
    ∃ ext rest, splitWordsChars cs = (c :: ext) :: rest := by
  induction cs with
  | nil => simp [List.dropWhile] at h
  | cons c0 cs0 ih =>
    by_cases hws : isWS c0
    · rw [List.dropWhile_cons, if_pos hws] at h
      obtain ⟨ext, rest, hr⟩ := ih h
      refine ⟨ext, rest, ?_⟩
      rw [← hr, splitWordsChars, splitWordsAux, if_pos hws]
      rfl
    · rw [List.dropWhile_cons, if_neg hws] at h
      injection h with h1 h2
      subst h1
      rw [splitWordsChars, splitWordsAux, if_neg hws]
      obtain ⟨ext, rest, hr⟩ := splitWordsAux_acc_head cs0 [c0] (by simp)
      exact ⟨ext, rest, by simpa using hr⟩

/-! ## Digit lemmas -/

theorem digitChar_facts (d : Nat) (hd : d < 10) :
    isWS (digitChar d) = false ∧ isDigitCh (digitChar d) = true ∧
    charVal (digitChar d) = d ∧ (digitChar d == '#') = false := by
  interval_cases d <;> exact ⟨by decide, by decide, by decide, by decide⟩

theorem isDigitCh_not_ws (c : Char) (h : isDigitCh c = true) :
    isWS c = false ∧ (c == '#') = false := by
  simp only [isDigitCh, Bool.and_eq_true, decide_eq_true_eq] at h
  refine ⟨?_, ?_⟩
  · have h1 : (c == ' ') = false := by
      rw [beq_eq_false_iff_ne]
      intro hc
      subst hc
      revert h
      decide
    have h2 : (c == '\t') = false := by
      rw [beq_eq_false_iff_ne]
      intro hc
      subst hc
      revert h
      decide
    have h3 : (c == '\r') = false := by
      rw [beq_eq_false_iff_ne]
      intro hc
      subst hc
      revert h
      decide
    have h4 : (c == '\n') = false := by
      rw [beq_eq_false_iff_ne]
      intro hc
      subst hc
      revert h
      decide
    simp [isWS, h1, h2, h3, h4]
  · rw [beq_eq_false_iff_ne]
    intro hc
    subst hc
    revert h
    decide

theorem natToCharsAux_digits (fuel : Nat) :
    ∀ (n : Nat) (acc : List Char), n ≤ fuel →
      natToCharsAux fuel n acc
        = ((Nat.digits 10 n).map digitChar).reverse ++ acc := by
  induction fuel with
  | zero =>
    intro n acc hn
    have : n = 0 := by omega
    subst this
    simp [natToCharsAux]
  | succ fuel ih =>
    intro n acc hn
    by_cases h0 : n = 0
    · subst h0
      simp [natToCharsAux]
    · rw [natToCharsAux, if_neg h0]
      rw [ih (n / 10) _ (by
        have := Nat.div_lt_self (Nat.pos_of_ne_zero h0) (by norm_num : 1 < 10)
        omega)]
      rw [Nat.digits_def' (by norm_num : 1 < 10) (Nat.pos_of_ne_zero h0)]
      simp

theorem natToChars_eq_digits (n : Nat) (h0 : n ≠ 0) :
    natToChars n = ((Nat.digits 10 n).map digitChar).reverse := by
  rw [natToChars, if_neg h0, natToCharsAux_digits n n [] (Nat.le_refl n)]
  simp

theorem natToChars_all_digits (n : Nat) :
    natToChars n ≠ [] ∧ ∀ c ∈ natToChars n, isDigitCh c = true := by
  by_cases h0 : n = 0
  · subst h0
    exact ⟨by decide, by decide⟩
  · rw [natToChars_eq_digits n h0]
    constructor
    · intro h
      have : (Nat.digits 10 n).map digitChar = [] := by
        simpa using congrArg List.reverse h
      have : Nat.digits 10 n = [] := by simpa using this
      exact h0 (by simpa using (Nat.digits_eq_nil_iff_eq_zero).mp this)
    · intro c hc
      rw [List.mem_reverse] at hc
      rcases List.mem_map.mp hc with ⟨d, hd, rfl⟩
      have : d < 10 := Nat.digits_lt_base (by norm_num) hd
      exact (digitChar_facts d this).2.1

theorem parseNat_natToChars (n : Nat) :
    parseNatChars (natToChars n) = some n := by
  by_cases h0 : n = 0
  · subst h0
    decide
  · obtain ⟨hne, hdig⟩ := natToChars_all_digits n
    rw [parseNatChars, if_neg (by simpa using hne),
      if_pos (List.all_eq_true.mpr (fun c hc => hdig c hc))]
    rw [natToChars_eq_digits n h0]
    congr 1
    rw [List.map_reverse, List.reverse_reverse, List.map_map]
    have hid : ∀ d ∈ Nat.digits 10 n, (charVal ∘ digitChar) d = id d := by
      intro d hd
      have hlt : d < 10 := Nat.digits_lt_base (by norm_num) hd
      exact (digitChar_facts d hlt).2.2.1
    rw [List.map_congr_left hid, List.map_id]
    exact Nat.ofDigits_digits 10 n

/-! ## Field well-formedness and data-line round-trip -/

/-- A field value as produced by the word splitter: nonempty and free of
whitespace. -/
def wordOK (s : String) : Bool :=
  !s.toList.isEmpty && s.toList.all (fun c => !isWS c)

/-- The first character of the string exists and is not `#`. -/
def headNotHash (s : String) : Bool :=
  match s.toList with
  | [] => false
  | c :: _ => c != '#'

/-- The field well-formedness a parsed entry always has: every text
field is a word, and the source (hence the serialized line) does not
start with `#`. -/
def entryFieldsOK (e : Entry) : Bool :=
  wordOK e.source && wordOK e.target && wordOK e.fstype && wordOK e.options
    && headNotHash e.source

theorem wordOK_mk (w : List Char) (h1 : w ≠ [])
    (h2 : ∀ c ∈ w, isWS c = false) : wordOK (String.mk w) = true := by
  simp only [wordOK, Bool.and_eq_true]
  refine ⟨?_, ?_⟩
  · simpa using h1
  · rw [List.all_eq_true]
    intro c hc
    simp [h2 c hc]

theorem wordOK_iff (s : String) (h : wordOK s = true) :
    s.toList ≠ [] ∧ ∀ c ∈ s.toList, isWS c = false := by
  simp only [wordOK, Bool.and_eq_true] at h
  refine ⟨by simpa using h.1, ?_⟩
  intro c hc
  have := List.all_eq_true.mp h.2 c hc
  simpa using this

theorem splitWords_fieldsLine (e : Entry) (hf : entryFieldsOK e = true) :
    splitWordsChars (fieldsLine e).toList
      = [e.source.toList, e.target.toList, e.fstype.toList, e.options.toList,
         natToChars e.dump_freq, natToChars e.pass_no] := by
  simp only [entryFieldsOK, Bool.and_eq_true] at hf
  obtain ⟨⟨⟨⟨hs, ht⟩, hft⟩, ho⟩, _⟩ := hf
  rw [show (fieldsLine e).toList
      = joinSepChars ' '
          [e.source.toList, e.target.toList, e.fstype.toList, e.options.toList,
           natToChars e.dump_freq, natToChars e.pass_no] from rfl]
  apply splitWordsChars_join
  · intro w hw
    simp only [List.mem_cons, List.not_mem_nil, or_false] at hw
    rcases hw with rfl | rfl | rfl | rfl | rfl | rfl
    · exact (wordOK_iff _ hs).1
    · exact (wordOK_iff _ ht).1
    · exact (wordOK_iff _ hft).1
    · exact (wordOK_iff _ ho).1
    · exact (natToChars_all_digits _).1
    · exact (natToChars_all_digits _).1
  · intro w hw c hc
    simp only [List.mem_cons, List.not_mem_nil, or_false] at hw
    rcases hw with rfl | rfl | rfl | rfl | rfl | rfl
    · exact (wordOK_iff _ hs).2 c hc
    · exact (wordOK_iff _ ht).2 c hc
    · exact (wordOK_iff _ hft).2 c hc
    · exact (wordOK_iff _ ho).2 c hc
    · exact (isDigitCh_not_ws c ((natToChars_all_digits _).2 c hc)).1
    · exact (isDigitCh_not_ws c ((natToChars_all_digits _).2 c hc)).1

theorem mkEntryFields_fieldsLine (e : Entry) (hf : entryFieldsOK e = true) :
    mkEntryFields (splitWordsChars (fieldsLine e).toList)
      = some (fun cm => { e with comment := cm }) := by
  rw [splitWords_fieldsLine e hf, mkEntryFields]
  rw [parseNat_natToChars, parseNat_natToChars]
  rfl

theorem fieldsLine_not_cb (e : Entry) (hf : entryFieldsOK e = true) :
    cbLine (fieldsLine e) = false := by
  have hf' := hf
  simp only [entryFieldsOK, Bool.and_eq_true] at hf'
  obtain ⟨⟨⟨⟨hs, _⟩, _⟩, _⟩, hh⟩ := hf'
  obtain ⟨c, s', hsrc⟩ : ∃ c s', e.source.toList = c :: s' := by
    cases hd : e.source.toList with
    | nil => exact absurd hd (wordOK_iff _ hs).1
    | cons c s' => exact ⟨c, s', rfl⟩
  have hcws : isWS c = false := (wordOK_iff _ hs).2 c
    (by rw [hsrc]; exact List.mem_cons_self c s')
  have hchash : (c != '#') = true := by
    rw [headNotHash, hsrc] at hh
    exact hh
  have hlist : (fieldsLine e).toList
      = c :: (s' ++ ' ' :: joinSepChars ' '
          [e.target.toList, e.fstype.toList, e.options.toList,
           natToChars e.dump_freq, natToChars e.pass_no]) := by
    rw [show (fieldsLine e).toList
        = joinSepChars ' '
            [e.source.toList, e.target.toList, e.fstype.toList,
             e.options.toList, natToChars e.dump_freq,
             natToChars e.pass_no] from rfl]
    rw [show joinSepChars ' '
          [e.source.toList, e.target.toList, e.fstype.toList,
           e.options.toList, natToChars e.dump_freq, natToChars e.pass_no]
        = e.source.toList ++ ' ' :: joinSepChars ' '
            [e.target.toList, e.fstype.toList, e.options.toList,
             natToChars e.dump_freq, natToChars e.pass_no] from rfl]
    rw [hsrc]
    rfl
  rw [cbLine, isBlankLine, isCommentLine, hlist]
  rw [List.dropWhile_cons, if_neg (by simp [hcws])]
  simp only [List.all_cons, hcws, Bool.false_and, Bool.false_or]
  simpa using hchash

/-! ## Properties of entries produced by the parser -/

theorem mkEntryFields_props (l : String) (hcb : cbLine l = false)
    (mk : List String → Entry)
    (hmk : mkEntryFields (splitWordsChars l.toList) = some mk)
    (cm : List String) :
    entryFieldsOK (mk cm) = true ∧ (mk cm).comment = cm := by
  have hwords := splitWordsAux_words_ok l.toList [] (by simp)
  have hblank : isBlankLine l = false := by
    have := hcb
    simp only [cbLine, Bool.or_eq_false_iff] at this
    exact this.1
  have hcomm : isCommentLine l = false := by
    have := hcb
    simp only [cbLine, Bool.or_eq_false_iff] at this
    exact this.2
  obtain ⟨c, cs', hdrop⟩ : ∃ c cs', l.toList.dropWhile isWS = c :: cs' := by
    cases hd : l.toList.dropWhile isWS with
    | nil =>
      exfalso
      have hall : ∀ x ∈ l.toList, isWS x = true := by
        intro x hx
        exact List.dropWhile_eq_nil_iff.mp hd x hx
      have : isBlankLine l = true := by
        rw [isBlankLine, List.all_eq_true]
        exact hall
      rw [this] at hblank
      cases hblank
    | cons c cs' => exact ⟨c, cs', rfl⟩
  have hhash : (c == '#') = false := by
    rw [isCommentLine, hdrop] at hcomm
    exact hcomm
  obtain ⟨ext, rest, hsplit⟩ := splitWordsChars_head l.toList c cs' hdrop
  have hmem : ∀ w ∈ splitWordsChars l.toList, w ≠ [] ∧
      ∀ d ∈ w, isWS d = false := hwords
  rw [hsplit] at hmk hmem
  have hw0 := hmem (c :: ext) (by simp)
  rcases rest with _ | ⟨t, rest⟩
  · simp [mkEntryFields] at hmk
  rcases rest with _ | ⟨f, rest⟩
  · simp [mkEntryFields] at hmk
  rcases rest with _ | ⟨o, rest⟩
  · simp [mkEntryFields] at hmk
  have hwt := hmem t (by simp)
  have hwf := hmem f (by simp)
  have hwo := hmem o (by simp)
  have hok4 : entryFieldsOK
      ⟨String.mk (c :: ext), String.mk t, String.mk f, String.mk o,
        0, 0, cm⟩ = true ∧ True := by
    refine ⟨?_, trivial⟩
    simp only [entryFieldsOK, Bool.and_eq_true]
    refine ⟨⟨⟨⟨?_, ?_⟩, ?_⟩, ?_⟩, ?_⟩
    · exact wordOK_mk _ hw0.1 hw0.2
    · exact wordOK_mk _ hwt.1 hwt.2
    · exact wordOK_mk _ hwf.1 hwf.2
    · exact wordOK_mk _ hwo.1 hwo.2
    · rw [headNotHash]
      simpa using hhash
  have hfields : ∀ dn pn,
      entryFieldsOK
        ⟨String.mk (c :: ext), String.mk t, String.mk f, String.mk o,
          dn, pn, cm⟩ = true := by
    intro dn pn
    have := hok4.1
    simpa [entryFieldsOK, wordOK, headNotHash] using this
  rcases rest with _ | ⟨d, rest⟩
  · rw [mkEntryFields] at hmk
    injection hmk with hmk
    subst hmk
    exact ⟨hfields 0 0, rfl⟩
  rcases rest with _ | ⟨p, rest⟩
  · rw [mkEntryFields] at hmk
    cases hd : parseNatChars d with
    | none => rw [hd] at hmk; cases hmk
    | some dn =>
      rw [hd] at hmk
      injection hmk with hmk
      subst hmk
      exact ⟨hfields dn 0, rfl⟩
  rcases rest with _ | ⟨x, rest⟩
  · rw [mkEntryFields] at hmk
    cases hd : parseNatChars d with
    | none => rw [hd] at hmk; cases hmk
    | some dn =>
      cases hp : parseNatChars p with
      | none => rw [hd, hp] at hmk; cases hmk
      | some pn =>
        rw [hd, hp] at hmk
        injection hmk with hmk
        subst hmk
        exact ⟨hfields dn pn, rfl⟩
  · simp [mkEntryFields] at hmk

/-! ## Comment-accumulator lemmas -/

theorem takeWhile_append_all (p : α → Bool) (xs ys : List α)
    (h : ∀ x ∈ xs, p x = true) :
    (xs ++ ys).takeWhile p = xs ++ ys.takeWhile p := by
  induction xs with
  | nil => simp
  | cons x xs ih =>
    rw [List.cons_append, List.takeWhile_cons, if_pos (h x (by simp))]
    rw [ih (fun y hy => h y (by simp [hy]))]
    rfl

theorem dropWhile_append_all (p : α → Bool) (xs ys : List α)
    (h : ∀ x ∈ xs, p x = true) :
    (xs ++ ys).dropWhile p = ys.dropWhile p := by
  induction xs with
  | nil => simp
  | cons x xs ih =>
    rw [List.cons_append, List.dropWhile_cons, if_pos (h x (by simp))]
    exact ih (fun y hy => h y (by simp [hy]))

theorem takeWhile_dropWhile_nil (p : α → Bool) (l : List α) :
    (l.dropWhile p).takeWhile p = [] := by
  induction l with
  | nil => rfl
  | cons x l ih =>
    rw [List.dropWhile_cons]
    by_cases hx : p x
    · rw [if_pos hx]
      exact ih
    · rw [if_neg hx, List.takeWhile_cons, if_neg hx]

theorem commentSplit_append (p cmts : List String)
    (hc : ∀ l ∈ cmts, isCommentLine l = true)
    (hp : p.reverse.takeWhile isCommentLine = []) :
    commentSplit (p ++ cmts) = (p, cmts) := by
  rw [commentSplit, List.reverse_append]
  rw [takeWhile_append_all _ cmts.reverse _
    (fun x hx => hc x (List.mem_reverse.mp hx))]
  rw [dropWhile_append_all _ cmts.reverse _
    (fun x hx => hc x (List.mem_reverse.mp hx))]
  have hd : p.reverse.dropWhile isCommentLine = p.reverse := by
    have := List.takeWhile_append_dropWhile (p := isCommentLine)
      (l := p.reverse)
    rw [hp] at this
    simpa using this
  rw [hp, hd]
  simp

theorem commentSplit_snd_comments (p : List String) :
    ∀ l ∈ (commentSplit p).2, isCommentLine l = true := by
  intro l hl
  rw [commentSplit] at hl
  exact List.mem_takeWhile_imp (List.mem_reverse.mp hl)

theorem commentSplit_fst_noSuffix (p : List String) :
    (commentSplit p).1.reverse.takeWhile isCommentLine = [] := by
  rw [commentSplit]
  simp only [List.reverse_reverse]
  exact takeWhile_dropWhile_nil _ _

theorem commentSplit_fst_mem (p : List String) :
    ∀ l ∈ (commentSplit p).1, l ∈ p := by
  intro l hl
  rw [commentSplit] at hl
  have h1 := List.mem_reverse.mp hl
  have h2 := (List.dropWhile_sublist (l := p.reverse)
    (p := isCommentLine)).subset h1
  exact List.mem_reverse.mp h2

/-! ## Canonical tables: the parser invariant -/

/-- Every line of the block is a comment line. -/
def commentLines (ls : List String) : Bool := ls.all isCommentLine

/-- Every line of the block is comment-or-blank. -/
def cbLinesOK (ls : List String) : Bool := ls.all cbLine

/-- The block does not end in a comment line (so an entry's comment
block serialized after it re-attaches exactly). -/
def noCommentSuffix (ls : List String) : Bool :=
  (ls.reverse.takeWhile isCommentLine).isEmpty

/-- What the parser guarantees of every entry it produces. -/
def entryOK (e : Entry) : Bool := entryFieldsOK e && commentLines e.comment

/-- What the parser guarantees of every table it produces (with
comments enabled): shape invariants strong enough to make
serialize-then-reparse the identity. -/
def canonicalTable (t : Table) : Bool :=
  t.comments_enabled && t.entries.all entryOK && cbLinesOK t.intro_comment
    && cbLinesOK t.trailing_comment
    && (t.entries.isEmpty || noCommentSuffix t.intro_comment)
    && (!t.entries.isEmpty || t.trailing_comment.isEmpty)

/-- The parse-loop state invariant behind `canonicalTable`. -/
def stInv (st : PState) : Bool :=
  st.rentries.all entryOK && cbLinesOK st.pending &&
    (if st.started then
      !st.rentries.isEmpty && cbLinesOK st.intro && noCommentSuffix st.intro
     else st.rentries.isEmpty && st.intro.isEmpty)

theorem finishTable_canonical (st : PState) (hinv : stInv st = true) :
    canonicalTable (finishTable true st) = true := by
  simp only [stInv, Bool.and_eq_true] at hinv
  obtain ⟨⟨hall, hpend⟩, hcond⟩ := hinv
  rw [finishTable]
  by_cases hs : st.started
  · rw [if_pos hs]
    rw [if_pos hs] at hcond
    simp only [Bool.and_eq_true] at hcond
    obtain ⟨⟨hne, hintro⟩, hnosf⟩ := hcond
    simp only [canonicalTable, Bool.and_eq_true]
    refine ⟨⟨⟨⟨⟨trivial, hall⟩, hintro⟩, hpend⟩, ?_⟩, ?_⟩
    · simp only [Bool.or_eq_true]
      right
      exact hnosf
    · simp only [Bool.or_eq_true]
      left
      exact hne
  · rw [if_neg hs]
    rw [if_neg hs] at hcond
    simp only [canonicalTable, Bool.and_eq_true]
    exact ⟨⟨⟨⟨⟨trivial, by simp⟩, hpend⟩, by simp [cbLinesOK]⟩, by simp⟩,
      by simp⟩

theorem parseLoop_canonical (fname : String) (sink : String → Nat → Int)
    (lines : List String) :
    ∀ (ln : Nat) (st : PState) (t : Table) (cl : List (String × Nat)),
      stInv st = true →
      parseLoop true fname sink lines ln st = (Except.ok t, cl) →
      canonicalTable t = true := by
  induction lines with
  | nil =>
    intro ln st t cl hinv h
    rw [parseLoop_nil] at h
    injection h with h1 h2
    injection h1 with h1
    subst h1
    exact finishTable_canonical st hinv
  | cons l rest ih =>
    intro ln st t cl hinv h
    by_cases hcb : cbLine l
    · rw [parseLoop_cb _ _ _ _ _ _ _ hcb, if_pos rfl] at h
      refine ih (ln + 1) _ t cl ?_ h
      simp only [stInv, Bool.and_eq_true] at hinv ⊢
      obtain ⟨⟨hall, hpend⟩, hcond⟩ := hinv
      refine ⟨⟨hall, ?_⟩, hcond⟩
      simp only [cbLinesOK, List.all_append, Bool.and_eq_true]
      exact ⟨hpend, by simp [hcb]⟩
    · have hcb' : cbLine l = false := by simpa using hcb
      cases hmk : mkEntryFields (splitWordsChars l.toList) with
      | some mk =>
        rw [parseLoop_data _ _ _ _ _ _ _ mk hcb' hmk] at h
        refine ih (ln + 1) _ t cl ?_ h
        simp only [stInv, Bool.and_eq_true] at hinv ⊢
        obtain ⟨⟨hall, hpend⟩, hcond⟩ := hinv
        have hE : entryOK (mk (commentSplit st.pending).2) = true := by
          obtain ⟨hfo, hcm⟩ := mkEntryFields_props l hcb' mk hmk
            (commentSplit st.pending).2
          simp only [entryOK, Bool.and_eq_true]
          refine ⟨hfo, ?_⟩
          rw [hcm, commentLines, List.all_eq_true]
          exact commentSplit_snd_comments st.pending
        refine ⟨⟨?_, by simp [cbLinesOK]⟩, ?_⟩
        · simp only [List.all_append, Bool.and_eq_true]
          exact ⟨hall, by simp [hE]⟩
        · rw [if_pos trivial]
          by_cases hs : st.started
          · rw [if_pos hs] at hcond
            simp only [Bool.and_eq_true] at hcond
            obtain ⟨⟨_, hintro⟩, hnosf⟩ := hcond
            rw [if_pos hs]
            simp only [Bool.and_eq_true]
            exact ⟨⟨by simp, hintro⟩, hnosf⟩
          · rw [if_neg hs] at hcond
            rw [if_neg hs]
            simp only [Bool.and_eq_true]
            refine ⟨⟨by simp, ?_⟩, ?_⟩
            · rw [cbLinesOK, List.all_eq_true]
              intro x hx
              have := commentSplit_fst_mem st.pending x hx
              exact List.all_eq_true.mp hpend x this
            · rw [noCommentSuffix, commentSplit_fst_noSuffix]
              rfl
      | none =>
        by_cases hs : sink fname ln > 0
        · rw [parseLoop_bad_continue _ _ _ _ _ _ _ hcb' hmk hs] at h
          refine ih (ln + 1) { st with calls := st.calls ++ [(fname, ln)] }
            t cl ?_ h
          exact hinv
        · rw [parseLoop_bad_abort _ _ _ _ _ _ _ hcb' hmk hs] at h
          injection h with h1 h2
          exact Except.noConfusion h1

theorem parse_canonical (fname : String) (sink : String → Nat → Int)
    (lines : List String) (t : Table) (cl : List (String × Nat))
    (h : parseLines true fname sink lines = (Except.ok t, cl)) :
    canonicalTable t = true :=
  parseLoop_canonical fname sink lines 1 ⟨[], [], [], false, []⟩ t cl
    (by decide) h

/-! ## Reparsing a serialized canonical table -/

theorem parseLoop_cb_block (fname : String) (sink : String → Nat → Int)
    (ls : List String) :
    ∀ (rest : List String) (ln : Nat) (st : PState),
      (∀ l ∈ ls, cbLine l = true) →
      parseLoop true fname sink (ls ++ rest) ln st
        = parseLoop true fname sink rest (ln + ls.length)
            { st with pending := st.pending ++ ls } := by
  induction ls with
  | nil =>
    intro rest ln st _
    rw [List.nil_append, List.append_nil]
    rfl
  | cons l ls ih =>
    intro rest ln st h
    rw [List.cons_append, parseLoop_cb _ _ _ _ _ _ _ (h l (by simp)),
      if_pos rfl]
    rw [ih rest (ln + 1) _ (fun x hx => h x (by simp [hx]))]
    rw [show (st.pending ++ [l]) ++ ls = st.pending ++ l :: ls from by
      rw [← List.append_cons]]
    rw [show ln + 1 + ls.length = ln + (l :: ls).length from by
      simp only [List.length_cons]
      omega]

theorem parseLoop_entry_block (fname : String) (sink : String → Nat → Int)
    (e : Entry) (he : entryOK e = true) (rest : List String) (ln : Nat)
    (st : PState) (hp : noCommentSuffix st.pending = true) :
    parseLoop true fname sink (serializeEntryLines true e ++ rest) ln st
      = parseLoop true fname sink rest (ln + e.comment.length + 1)
          { rentries := st.rentries ++ [e],
            intro := if st.started then st.intro else st.pending,
            pending := [], started := true, calls := st.calls } := by
  obtain ⟨hfo, hcm⟩ : entryFieldsOK e = true ∧ commentLines e.comment = true := by
    simpa [entryOK] using he
  rw [serializeEntryLines, if_pos rfl, List.append_assoc]
  rw [parseLoop_cb_block _ _ e.comment _ ln st (fun l hl => by
    have := List.all_eq_true.mp hcm l hl
    simp [cbLine, this])]
  rw [List.singleton_append]
  rw [parseLoop_data _ _ _ _ _ _ _ _ (fieldsLine_not_cb e hfo)
    (mkEntryFields_fieldsLine e hfo)]
  have hcs : commentSplit (st.pending ++ e.comment) = (st.pending, e.comment) :=
    commentSplit_append st.pending e.comment
      (fun l hl => List.all_eq_true.mp hcm l hl)
      (by
        rw [noCommentSuffix] at hp
        simpa using hp)
  simp only [hcs]

theorem parseLoop_entries_block (fname : String) (sink : String → Nat → Int)
    (es : List Entry) :
    ∀ (rest : List String) (ln : Nat) (st : PState),
      es.all entryOK = true → st.pending = [] → st.started = true →
      ∃ m, parseLoop true fname sink
          (es.flatMap (serializeEntryLines true) ++ rest) ln st
        = parseLoop true fname sink rest m
            { st with rentries := st.rentries ++ es, pending := [] } := by
  induction es with
  | nil =>
    intro rest ln st _ hpend _
    refine ⟨ln, ?_⟩
    rw [List.flatMap_nil, List.nil_append, List.append_nil, ← hpend]
  | cons e es ih =>
    intro rest ln st hall hpend hstart
    rw [List.flatMap_cons, List.append_assoc]
    have hone := parseLoop_entry_block fname sink e
      (by
        simp only [List.all_cons, Bool.and_eq_true] at hall
        exact hall.1)
      (es.flatMap (serializeEntryLines true) ++ rest) ln st
      (by rw [hpend]; decide)
    rw [hone, if_pos hstart]
    obtain ⟨m, hm⟩ := ih rest (ln + e.comment.length + 1)
      { rentries := st.rentries ++ [e], intro := st.intro,
        pending := [], started := true, calls := st.calls }
      (by
        simp only [List.all_cons, Bool.and_eq_true] at hall
        exact hall.2)
      rfl rfl
    rw [hm]
    refine ⟨m, ?_⟩
    rw [show (st.rentries ++ [e]) ++ es = st.rentries ++ e :: es from by
      rw [← List.append_cons]]
    rw [← hstart]

theorem reparse_serialized (t : Table) (hc : canonicalTable t = true)
    (fname : String) (sink : String → Nat → Int) :
    parseLines true fname sink (serializeTable t) = (Except.ok t, []) := by
  obtain ⟨ents, tintro, ttrail, tflag⟩ := t
  simp only [canonicalTable, Bool.and_eq_true] at hc
  obtain ⟨⟨⟨⟨⟨hflag, hall⟩, hintro⟩, htrail⟩, hdis1⟩, hdis2⟩ := hc
  have hflag' : tflag = true := hflag
  subst hflag'
  have hintro' : ∀ l ∈ tintro, cbLine l = true := by
    intro l hl
    exact List.all_eq_true.mp hintro l hl
  have htrail' : ∀ l ∈ ttrail, cbLine l = true := by
    intro l hl
    exact List.all_eq_true.mp htrail l hl
  cases ents with
  | nil =>
    have htr : ttrail = [] := by
      have : ttrail.isEmpty = true := by simpa using hdis2
      simpa using this
    subst htr
    have step1 : parseLines true fname sink
        (serializeTable ⟨[], tintro, [], true⟩)
        = parseLoop true fname sink [] (1 + tintro.length)
            ⟨[], [], tintro, false, []⟩ := by
      have hser : serializeTable ⟨[], tintro, [], true⟩ = tintro := by
        rw [serializeTable]
        simp
      rw [parseLines, hser]
      have := parseLoop_cb_block fname sink tintro [] 1
        ⟨[], [], [], false, []⟩ hintro'
      rw [List.append_nil] at this
      exact this
    rw [step1, parseLoop_nil]
    rfl
  | cons e0 es =>
    have hok0 : entryOK e0 = true := by
      simp only [List.all_cons, Bool.and_eq_true] at hall
      exact hall.1
    have hoks : es.all entryOK = true := by
      simp only [List.all_cons, Bool.and_eq_true] at hall
      exact hall.2
    have hns : noCommentSuffix tintro = true := by simpa using hdis1
    have step1 : parseLines true fname sink
        (serializeTable ⟨e0 :: es, tintro, ttrail, true⟩)
        = parseLoop true fname sink
            ((e0 :: es).flatMap (serializeEntryLines true) ++ ttrail)
            (1 + tintro.length) ⟨[], [], tintro, false, []⟩ := by
      have hser : serializeTable ⟨e0 :: es, tintro, ttrail, true⟩
          = tintro ++ ((e0 :: es).flatMap (serializeEntryLines true) ++ ttrail) := by
        rw [serializeTable, List.append_assoc]
      rw [parseLines, hser]
      exact parseLoop_cb_block fname sink tintro _ 1 ⟨[], [], [], false, []⟩
        hintro'
    have step2 : parseLoop true fname sink
        ((e0 :: es).flatMap (serializeEntryLines true) ++ ttrail)
        (1 + tintro.length) ⟨[], [], tintro, false, []⟩
        = parseLoop true fname sink
            (es.flatMap (serializeEntryLines true) ++ ttrail)
            (1 + tintro.length + e0.comment.length + 1)
            ⟨[e0], tintro, [], true, []⟩ := by
      rw [List.flatMap_cons, List.append_assoc]
      exact parseLoop_entry_block fname sink e0 hok0 _ _
        ⟨[], [], tintro, false, []⟩ hns
    obtain ⟨m, step3⟩ := parseLoop_entries_block fname sink es ttrail
      (1 + tintro.length + e0.comment.length + 1)
      ⟨[e0], tintro, [], true, []⟩ hoks rfl rfl
    have step4 : parseLoop true fname sink ttrail m
        ⟨e0 :: es, tintro, [], true, []⟩
        = parseLoop true fname sink [] (m + ttrail.length)
            ⟨e0 :: es, tintro, ttrail, true, []⟩ := by
      have := parseLoop_cb_block fname sink ttrail [] m
        ⟨e0 :: es, tintro, [], true, []⟩ htrail'
      rw [List.append_nil] at this
      exact this
    have step5 : parseLoop true fname sink [] (m + ttrail.length)
        ⟨e0 :: es, tintro, ttrail, true, []⟩
        = (Except.ok ⟨e0 :: es, tintro, ttrail, true⟩, []) := by
      rw [parseLoop_nil]
      rfl
    rw [step1, step2, step3]
    exact Eq.trans step4 step5

/-- C2: parse-after-serialize is the identity on parsed tables — for
any table obtained by a successful parse with comments enabled,
re-parsing its serialization succeeds (with no error-sink invocations)
and returns a table equal to it in entries (fields and attached
comments), intro_comment, trailing_comment, and the comments flag. -/
theorem parse_serialize_roundtrip (fname fname2 : String)
    (sink sink2 : String → Nat → Int) (lines : List String) (t : Table)
    (cl : List (String × Nat))
    (h : parseLines true fname sink lines = (Except.ok t, cl)) :
    parseLines true fname2 sink2 (serializeTable t) = (Except.ok t, []) :=
  reparse_serialized t (parse_canonical fname sink lines t cl h) fname2 sink2

/-- C2 witness: a concrete file with an intro block, an attached entry
comment, and a trailing comment parses to a table whose serialization
re-parses to the very same table. -/
theorem parse_serialize_roundtrip_witness :
    parseLines true "f" (fun _ _ => 1)
      ["# intro", "", "# c1", "/dev/sda1 / ext4 defaults 0 1", "# tail"]
      = (Except.ok ⟨[⟨"/dev/sda1", "/", "ext4", "defaults", 0, 1, ["# c1"]⟩],
          ["# intro", ""], ["# tail"], true⟩, []) ∧
    parseLines true "g" (fun _ _ => 1)
      (serializeTable ⟨[⟨"/dev/sda1", "/", "ext4", "defaults", 0, 1, ["# c1"]⟩],
          ["# intro", ""], ["# tail"], true⟩)
      = (Except.ok ⟨[⟨"/dev/sda1", "/", "ext4", "defaults", 0, 1, ["# c1"]⟩],
          ["# intro", ""], ["# tail"], true⟩, []) := by
  refine ⟨rfl, ?_⟩
  exact parse_serialize_roundtrip "f" "g" (fun _ _ => 1) (fun _ _ => 1)
    ["# intro", "", "# c1", "/dev/sda1 / ext4 defaults 0 1", "# tail"]
    _ [] rfl

end MTab
